import Mathlib

/-!
Verification development for the duck-server RPC framework.

The definitions below are shallow embeddings of the server-side core:
`server/core/error.ts`, `server/core/response.ts`, `server/core/router.ts`,
`server/core/procedure.ts`, the middleware engine (`composeMiddlewares`),
and the status-selection step of the HTTP adapter (`fetchRequestHandler`).
Two pieces of the core are not present under `src/` (only their tests and
importers are): the `RPC_CODES` status table (`codes.ts`) and the schema
adapter (`schema.ts`); those are modelled from the specification and are
marked as such in their doc comments.
-/

namespace DuckServer

/-- Validation issue, normalized to `{ message, path }` where path entries are
strings or integers (StandardSchemaV1.Issue). -/
structure Issue where
  message : String
  path : List (String ⊕ Nat)
deriving DecidableEq, Repr

/-- Error payload placed in an error envelope by `rpcErr` (`response.ts` line 29):
`{ code, message, issues }`. -/
structure ErrPayload where
  code : String
  message : String
  issues : List Issue
deriving DecidableEq, Repr

/-- Response envelope (`RPCResType` in `response.ts`): success `{ ok: true, data, code }`
or error `{ ok: false, code, error }`.  Codes are strings; the taxonomy is open at
runtime (the TypeScript type is a closed union, but values flow through `as never`
casts). -/
inductive RPCRes (V : Type) where
  | ok (data : V) (code : String)
  | err (code : String) (error : ErrPayload)
deriving DecidableEq, Repr

/-- Code of an envelope (`data.code` is present on both variants). -/
def resCode {V : Type} : RPCRes V → String
  | .ok _ c => c
  | .err c _ => c

/-- Model of arbitrary JavaScript values as they matter to the error layer:
an `Error` object (with its `name`, `message`, an optional string `code`
property, optional `issues`, optional `cause`), a string, null/undefined,
a number, or any other non-error value. A `code` property that is present
but not a string behaves identically to an absent one in every guard of the
source (`typeof code === 'string'` checks), so it is collapsed into `none`. -/
inductive UnknownV where
  | err (name : String) (message : String) (code : Option String)
        (issues : Option (List Issue)) (cause : Option UnknownV)
  | str (s : String)
  | nil
  | num (n : Int)
  | plain

/-- Property access `e.code` with JavaScript semantics: `undefined` on non-objects
and on errors without a string code. -/
def jsCode : UnknownV → Option String
  | .err _ _ c _ _ => c
  | _ => none

/-- Property access `e.message`. -/
def jsMessage : UnknownV → Option String
  | .err _ m _ _ _ => some m
  | _ => none

/-- Property access `e.issues`. -/
def jsIssues : UnknownV → Option (List Issue)
  | .err _ _ _ i _ => i
  | _ => none

/-- Runtime check `e instanceof Error`. -/
def isJSErrorObj : UnknownV → Bool
  | .err _ _ _ _ _ => true
  | _ => false

/-- Embedding of `isRPCError` (`error.ts` lines 42-44):
`e instanceof Error && typeof (e as RPCError).code === 'string'`. -/
def isRPCError : UnknownV → Bool
  | .err _ _ (some _) _ _ => true
  | _ => false

/-- Embedding of `createRPCError` (`error.ts` lines 25-32): builds an `Error` with
`name = 'RPCError'`, the given code and message, the given cause, and
`issues = opts.issues ?? []`. -/
def createRPCError (code message : String) (cause : Option UnknownV)
    (issues : Option (List Issue)) : UnknownV :=
  .err "RPCError" message (some code) (some (issues.getD [])) cause

/-- Embedding of `rpcErrorFrom` (`error.ts` lines 47-53). -/
def rpcErrorFrom (e : UnknownV) : UnknownV :=
  if isRPCError e then e
  else
    match e with
    | .err _ m _ _ _ => createRPCError "RPC_INTERNAL_SERVER_ERROR" m (some e) none
    | _ => createRPCError "RPC_INTERNAL_SERVER_ERROR" "Unknown error" (some e) none

/-- Embedding of `rpcOk` (`response.ts` lines 19-21). -/
def rpcOk {V : Type} (data : V) (code : String) : RPCRes V :=
  .ok data code

/-- Embedding of `rpcErr` (`response.ts` lines 24-30):
`{ ok: false, code, error: { code, message: message ?? 'NOT_PROVIDED', issues: issues ?? [] } }`. -/
def rpcErr {V : Type} (code : String) (message : Option String)
    (issues : Option (List Issue)) : RPCRes V :=
  .err code ⟨code, message.getD "NOT_PROVIDED", issues.getD []⟩

/-- Modelled from the spec: the status table `RPC_CODES` lives in `codes.ts`,
which is not under `src/`; the values follow the exhaustive table of the
specification, which the repository's own tests pin value by value.  Lookup of
a code not in the table yields `none` (JavaScript `undefined`). -/
def RPC_CODES : String → Option Nat
  | "RPC_OK" => some 200
  | "RPC_CREATED" => some 201
  | "RPC_BAD_REQUEST" => some 400
  | "RPC_UNAUTHORIZED" => some 401
  | "RPC_FORBIDDEN" => some 403
  | "RPC_NOT_FOUND" => some 404
  | "RPC_METHOD_NOT_ALLOWED" => some 405
  | "RPC_TIMEOUT" => some 408
  | "RPC_CONFLICT" => some 409
  | "RPC_PRECONDITION_FAILED" => some 412
  | "RPC_PAYLOAD_TOO_LARGE" => some 413
  | "RPC_UNSUPPORTED_MEDIA_TYPE" => some 415
  | "RPC_TOO_MANY_REQUESTS" => some 429
  | "RPC_PARSE_ERROR" => some 460
  | "RPC_VALIDATION_ERROR" => some 461
  | "RPC_PROCEDURE_NOT_FOUND" => some 462
  | "RPC_CONTEXT_ERROR" => some 463
  | "RPC_MIDDLEWARE_ERROR" => some 464
  | "RPC_SERIALIZATION_ERROR" => some 465
  | "RPC_INTERNAL_SERVER_ERROR" => some 500
  | "RPC_NOT_IMPLEMENTED" => some 501
  | "RPC_BAD_GATEWAY" => some 502
  | "RPC_SERVICE_UNAVAILABLE" => some 503
  | "RPC_GATEWAY_TIMEOUT" => some 504
  | _ => none

/-- Embedding of `rpcToErr` (`response.ts` lines 33-37): convert an unknown thrown
value into an error envelope and an HTTP status,
`status = RPC_CODES[de.code] ?? RPC_CODES.RPC_INTERNAL_SERVER_ERROR`.
`rpcErrorFrom` always yields an error object with a string `code`, so the
`"undefined"` default of the envelope's code is never exercised. -/
def rpcToErr (V : Type) (e : UnknownV) : RPCRes V × Nat :=
  let de := rpcErrorFrom e
  (rpcErr ((jsCode de).getD "undefined") (jsMessage de) (jsIssues de),
   ((jsCode de).bind RPC_CODES).getD 500)

/-- Status actually carried by the `Response` produced by `serializeResponse`
(`codec.ts` lines 53-73): the status option is passed through to the `Response`
constructor, whose `ResponseInit.status` defaults to `200` when the value is
`undefined`. -/
def responseStatus (status : Option Nat) : Nat :=
  status.getD 200

/-- Status-selection step of `fetchRequestHandler` (`src/unnamed/part_008`
lines 76-81): when `_call` returns an envelope, the handler sends
`serializeResponse(data, RPC_CODES[data.code as never], ...)` — with no
fallback applied; when any step throws, the handler sends the status component
of `rpcToErr(e)`. -/
def fetchStatus (V : Type) (callResult : Except UnknownV (RPCRes V)) : Nat :=
  match callResult with
  | .ok data => responseStatus (RPC_CODES (resCode data))
  | .error e => (rpcToErr V e).2

/-! ## Middleware engine (`composeMiddlewares`, `src/unnamed/part_012`) -/

/-- Observation events recorded while a composed dispatch runs.  They mark the
operational points of `composeMiddlewares` and `_call`: `start i ctx` when
middleware `i` is invoked with context `ctx` (line 34 of the engine),
`finish i` when that middleware's activation returns (the `await mw(...)`
completes), `resolve ctx` when the composed resolver closure is invoked
(line 32), and `callUser ctx input` when the user resolver is invoked with the
validated input (`procedure.ts` line 102). -/
inductive Ev (Ctx V : Type) where
  | start (i : Nat) (ctx : Ctx)
  | finish (i : Nat)
  | resolve (ctx : Ctx)
  | callUser (ctx : Ctx) (input : V)
deriving DecidableEq, Repr

/-- State threaded through one dispatch invocation: the `idx` re-entry guard
(`let idx = -1`, line 25) and the observation trace. -/
structure DispatchSt (Ctx V : Type) where
  idx : Int
  trace : List (Ev Ctx V)
deriving DecidableEq, Repr

/-- Computation in the dispatch model: state passing plus JavaScript exceptions.
Thrown values are arbitrary `UnknownV`; state updates made before a throw are
kept, as in the source. -/
def DM (Ctx V α : Type) : Type :=
  DispatchSt Ctx V → Except UnknownV α × DispatchSt Ctx V

/-- Return a value. -/
def dmPure {Ctx V α : Type} (a : α) : DM Ctx V α := fun s => (.ok a, s)

/-- Sequencing with exception propagation. -/
def dmBind {Ctx V α β : Type} (m : DM Ctx V α) (f : α → DM Ctx V β) : DM Ctx V β :=
  fun s =>
    match m s with
    | (.ok a, s1) => f a s1
    | (.error e, s1) => (.error e, s1)

/-- Lift a fallible pure computation (a `Promise` that either fulfils or
rejects) into the dispatch model. -/
def dmLift {Ctx V α : Type} (r : Except UnknownV α) : DM Ctx V α := fun s => (r, s)

/-- Record an observation event. -/
def dmEmit {Ctx V : Type} (e : Ev Ctx V) : DM Ctx V Unit :=
  fun s => (.ok (), { s with trace := s.trace ++ [e] })

/-- Thrown by the engine's re-entry guard: `new Error('next() called multiple times')`
(line 28). -/
def nextTwiceError : UnknownV :=
  .err "Error" "next() called multiple times" none none none

/-- Guard at the top of `dispatch` (lines 28-29): `if (i <= idx) throw ...; idx = i`. -/
def guardIdx {Ctx V : Type} (i : Nat) : DM Ctx V Unit :=
  fun s =>
    if (i : Int) ≤ s.idx then (.error nextTwiceError, s)
    else (.ok (), { s with idx := (i : Int) })

/-- Result returned by a middleware (`MiddlewareResult`):
`{ ok: true, data: envelope }` or `{ ok: false, error }`. -/
inductive MWRes (V : Type) where
  | ok (data : RPCRes V)
  | fail (e : UnknownV)

/-- Shallow embedding of middleware bodies.  Real middlewares are arbitrary
user functions `({ctx, next}) => result`; the claims quantify over the three
behaviours that appear in them: `fwd f` awaits `next` exactly once — with
`next({ctx})` when `f ctx = some ctx'` and bare `next()` when `f ctx = none` —
and returns its result; `halt e` returns `{ ok: false, error: e }` without
calling `next`; `dbl` awaits `next()` twice, returning the second result. -/
inductive MWProg (Ctx : Type) where
  | fwd (f : Ctx → Option Ctx)
  | halt (e : UnknownV)
  | dbl

/-- Run one middleware body against a `next` callable. -/
def runMW {Ctx V : Type} (mw : MWProg Ctx) (ctx : Ctx)
    (next : Option Ctx → DM Ctx V (MWRes V)) : DM Ctx V (MWRes V) :=
  match mw with
  | .fwd f => next (f ctx)
  | .halt e => dmPure (.fail e)
  | .dbl => dmBind (next none) fun _ => next none

/-- Embedding of the `dispatch` closure of `composeMiddlewares`
(`src/unnamed/part_012` lines 27-58).  The original indexes the middleware
array with an absolute counter `i`; here the remaining suffix of the list is
passed alongside the same counter, so `mws` is always `middlewares[i..]`.
Each activation: run the guard and set `idx := i`; with no middleware left,
invoke the resolver closure; otherwise invoke the middleware with a `next`
that dispatches the rest at `i + 1` under `opts?.ctx ?? nextCtx`, wrapping the
envelope as `{ ok: true, data }`; then either return the unwrapped data, or —
for a returned error — rebuild an envelope: an `isRPCError` value keeps its
`code`/`message`/`issues` (lines 49-51), any other value keeps a string `code`
property if present (else `RPC_INTERNAL_SERVER_ERROR`), takes
`message || 'Middleware error'` (JavaScript truthiness: an empty string is
replaced), and `issues || []` (lines 53-57). -/
def dispatch {Ctx V : Type} (resolver : Ctx → DM Ctx V (RPCRes V)) :
    List (MWProg Ctx) → Nat → Ctx → DM Ctx V (RPCRes V)
  | [], i, nextCtx =>
    dmBind (guardIdx i) fun _ =>
    dmBind (dmEmit (.resolve nextCtx)) fun _ =>
    resolver nextCtx
  | mw :: rest, i, nextCtx =>
    dmBind (guardIdx i) fun _ =>
    dmBind (dmEmit (.start i nextCtx)) fun _ =>
    dmBind (runMW mw nextCtx fun opts =>
      dmBind (dispatch resolver rest (i + 1) (opts.getD nextCtx)) fun data =>
      dmPure (.ok data)) fun result =>
    dmBind (dmEmit (.finish i)) fun _ =>
    match result with
    | .ok data => dmPure data
    | .fail e =>
      if isRPCError e then
        dmPure (rpcErr ((jsCode e).getD "undefined") (jsMessage e) (jsIssues e))
      else
        dmPure (rpcErr ((jsCode e).getD "RPC_INTERNAL_SERVER_ERROR")
          (some (match jsMessage e with
                 | some m => if m = "" then "Middleware error" else m
                 | none => "Middleware error"))
          (some ((jsIssues e).getD [])))

/-- Embedding of `composeMiddlewares` (lines 20-62) applied to a context and a
request-specific resolver closure: run `dispatch(0, ctx)` with a fresh
`idx = -1` and an empty trace.  The result is the settled promise (fulfilled
envelope or rejected thrown value) together with the final observation
state. -/
def composeMiddlewares {Ctx V : Type} (mws : List (MWProg Ctx)) (ctx : Ctx)
    (resolver : Ctx → DM Ctx V (RPCRes V)) :
    Except UnknownV (RPCRes V) × DispatchSt Ctx V :=
  dispatch resolver mws 0 ctx ⟨-1, []⟩

/-! ## Schema adapter (modelled from the spec) and procedure builder
(`server/core/procedure.ts`) -/

/-- Schema capability: `validate(input) → parsed | issues` (spec §3).  Values of
the data plane are an arbitrary type `V`. -/
def SchemaV (V : Type) : Type := V → Except (List Issue) V

/-- Validation-mode flag `'on' | 'off'`. -/
inductive VMode where
  | on
  | off
deriving DecidableEq, Repr

/-- Modelled from the spec: the schema adapter (`schema.ts`) is not under
`src/`; per §4.2, `parseInput(schema, raw)` returns the parsed value, and on
failure raises an RPC error with code `RPC_BAD_REQUEST`, message
`"Validation failed"`, and the validator's issues attached (the repository's
schema tests pin the code). -/
def parseInput {V : Type} (s : SchemaV V) (raw : V) : Except UnknownV V :=
  match s raw with
  | .ok v => .ok v
  | .error issues => .error (createRPCError "RPC_BAD_REQUEST" "Validation failed" none (some issues))

/-- Modelled from the spec: output-side counterpart of `parseInput`; per §4.2 a
failure raises an RPC error with code `RPC_INTERNAL_SERVER_ERROR` (the exact
message is not fixed by the spec; only the code is pinned by the tests). -/
def parseOutput {V : Type} (s : SchemaV V) (raw : V) : Except UnknownV V :=
  match s raw with
  | .ok v => .ok v
  | .error issues =>
    .error (createRPCError "RPC_INTERNAL_SERVER_ERROR" "Validation failed" none (some issues))

/-- Builder state (`ProcedureState`, `procedure.ts` lines 43-48). -/
structure ProcState (Ctx V : Type) where
  middlewares : List (MWProg Ctx)
  inputSchema : Option (SchemaV V)
  outputSchema : Option (SchemaV V)
  validation : Option VMode

/-- Default state of `createProcedure` (line 52): `{ middlewares: [], validation: 'on' }`. -/
def defaultProcState (Ctx V : Type) : ProcState Ctx V :=
  ⟨[], none, none, some .on⟩

/-- Builder transition `use` (lines 54-60): appends the middleware and carries
every other field over. -/
def stateUse {Ctx V : Type} (st : ProcState Ctx V) (mw : MWProg Ctx) : ProcState Ctx V :=
  ⟨st.middlewares ++ [mw], st.inputSchema, st.outputSchema, st.validation⟩

/-- Builder transition `input` (lines 62-68): replaces the input schema and
carries every other field over. -/
def stateInput {Ctx V : Type} (st : ProcState Ctx V) (s : SchemaV V) : ProcState Ctx V :=
  ⟨st.middlewares, some s, st.outputSchema, st.validation⟩

/-- Builder transition `output` (lines 70-76): replaces the output schema and
carries every other field over. -/
def stateOutput {Ctx V : Type} (st : ProcState Ctx V) (s : SchemaV V) : ProcState Ctx V :=
  ⟨st.middlewares, st.inputSchema, some s, st.validation⟩

/-- Builder transition `validation` (lines 119-121).  The source constructs the
new state as `{ middlewares: state.middlewares, validation: value }`: the
`inputSchema` and `outputSchema` fields are not carried over and come out
`undefined`. -/
def stateValidation {Ctx V : Type} (st : ProcState Ctx V) (v : VMode) : ProcState Ctx V :=
  ⟨st.middlewares, none, none, some v⟩

/-- Per-request resolver closure built by `_call` (`procedure.ts` lines 101-106):
invoke the user resolver with the refined context and the validated input; if
the result is `ok` and an output schema is set, parse the output data when
validation is `'on'` and substitute it into the envelope (`{ ...out, data }`),
otherwise keep the data unchanged. -/
def resolverWithInput {Ctx V : Type} (st : ProcState Ctx V)
    (userRes : Ctx → V → Except UnknownV (RPCRes V)) (validatedInput : V)
    (nextCtx : Ctx) : DM Ctx V (RPCRes V) :=
  dmBind (dmEmit (.callUser nextCtx validatedInput)) fun _ =>
  dmBind (dmLift (userRes nextCtx validatedInput)) fun out =>
  match st.outputSchema, out with
  | none, _ => dmPure out
  | some _, .err c p => dmPure (.err c p)
  | some s, .ok data code =>
    if st.validation = some .on then
      dmBind (dmLift (parseOutput s data)) fun d => dmPure (.ok d code)
    else dmPure (.ok data code)

/-- Embedding of `_call` (`procedure.ts` lines 91-113): validate the raw input
when an input schema is set and validation is `'on'`; run the pre-composed
middleware chain with the per-request resolver closure; catch any thrown value
and map it through `rpcToErr`, returning the envelope component.  The second
component is the final observation state. -/
def procCall {Ctx V : Type} (st : ProcState Ctx V)
    (userRes : Ctx → V → Except UnknownV (RPCRes V)) (ctx : Ctx) (rawInput : V) :
    RPCRes V × DispatchSt Ctx V :=
  let body : DM Ctx V (RPCRes V) :=
    dmBind (match st.inputSchema, st.validation with
            | some s, some .on => dmLift (parseInput s rawInput)
            | _, _ => dmPure rawInput) fun validatedInput =>
    dispatch (resolverWithInput st userRes validatedInput) st.middlewares 0 ctx
  match body ⟨-1, []⟩ with
  | (.ok r, s) => (r, s)
  | (.error e, s) => ((rpcToErr V e).1, s)

/-! ## Router and index (`server/core/router.ts`) -/

/-- Entry of a router record: a procedure definition, a nested router (itself a
record of entries), or any other value (ignored by the index builder, which
guards with `isProcedure` / `isRPCRouter`).  `P` stands for procedure
definitions; a router record is its ordered entry list (JavaScript objects
enumerate string keys in insertion order, and keys are unique). -/
inductive RNode (P : Type) where
  | proc (p : P)
  | sub (entries : List (String × RNode P))
  | other

/-- JavaScript `Map.get`: the value most recently `set` under the key. -/
def mapGet {α : Type} : List (String × α) → String → Option α
  | [], _ => none
  | (k, v) :: rest, q => if k = q then some v else mapGet rest q

/-- JavaScript `Map.set`: update in place when the key exists, append otherwise. -/
def mapSet {α : Type} : List (String × α) → String → α → List (String × α)
  | [], k, v => [(k, v)]
  | (k1, v1) :: rest, k, v =>
    if k1 = k then (k1, v) :: rest else (k1, v1) :: mapSet rest k v

/-- Embedding of `joinPath` (`router.ts` lines 40-42): `path.join('.')`. -/
def joinPath : List String → String
  | [] => ""
  | [s] => s
  | s :: rest => s ++ "." ++ joinPath rest

/-- Flat router index (`RouterIndex`, lines 32-35): dotted path to procedure,
and dotted path to sub-router record. -/
structure RouterIndex (P : Type) where
  procs : List (String × P)
  routers : List (String × List (String × RNode P))

/-- Depth-first `visit` of `buildRouterIndex` (lines 49-66): for each entry in
order, a procedure is `set` into the procedure map under its dotted path; a
sub-router is `set` into the router map and recursed into; other values are
skipped. -/
def visitIdx {P : Type} :
    List (String × RNode P) → List String → RouterIndex P → RouterIndex P
  | [], _, acc => acc
  | (k, n) :: rest, pre, acc =>
    match n with
    | .proc p =>
      visitIdx rest pre ⟨mapSet acc.procs (joinPath (pre ++ [k])) p, acc.routers⟩
    | .sub es =>
      visitIdx rest pre
        (visitIdx es (pre ++ [k]) ⟨acc.procs, mapSet acc.routers (joinPath (pre ++ [k])) es⟩)
    | .other => visitIdx rest pre acc
termination_by es _ _ => sizeOf es
decreasing_by all_goals (simp_wf; try omega)

/-- Embedding of `buildRouterIndex` (lines 45-70): visit from the root with an
empty prefix and empty maps. -/
def buildRouterIndex {P : Type} (entries : List (String × RNode P)) : RouterIndex P :=
  visitIdx entries [] ⟨[], []⟩

/-- Embedding of `getProcedureAtPath` (lines 82-85):
`idx.procs.get(joinPath(path)) ?? null`.  The memoization of the index by
router identity (lines 73-79) returns the same value as building it, so the
built index is used directly. -/
def getProcedureAtPath {P : Type} (entries : List (String × RNode P))
    (path : List String) : Option P :=
  mapGet (buildRouterIndex entries).procs (joinPath path)

/-- Valid entry name per the spec's data model: a non-empty string without `'.'`. -/
def validKey (k : String) : Prop := k ≠ "" ∧ '.' ∉ k.data

instance : DecidablePred validKey := fun k => by
  unfold validKey; infer_instance

/-- Well-formed router tree: at every level the entry names are pairwise
distinct valid keys, recursively. -/
inductive ValidE {P : Type} : List (String × RNode P) → Prop where
  | mk {es : List (String × RNode P)}
      (hnd : (es.map Prod.fst).Nodup)
      (hkeys : ∀ q ∈ es, validKey q.1)
      (hsub : ∀ (k : String) (es1 : List (String × RNode P)),
        (k, RNode.sub es1) ∈ es → ValidE es1) : ValidE es

/-- The procedure `P` is reachable from the record by following the name chain. -/
inductive Reaches {P : Type} : List (String × RNode P) → List String → P → Prop where
  | head {es : List (String × RNode P)} {k : String} {p : P}
      (h : (k, RNode.proc p) ∈ es) : Reaches es [k] p
  | step {es es1 : List (String × RNode P)} {k : String} {path : List String} {p : P}
      (h : (k, RNode.sub es1) ∈ es) (hr : Reaches es1 path p) :
      Reaches es (k :: path) p

/-- A nested router record is reachable from the record by following the name
chain. -/
inductive RReaches {P : Type} :
    List (String × RNode P) → List String → List (String × RNode P) → Prop where
  | head {es es1 : List (String × RNode P)} {k : String}
      (h : (k, RNode.sub es1) ∈ es) : RReaches es [k] es1
  | step {es es1 es2 : List (String × RNode P)} {k : String} {path : List String}
      (h : (k, RNode.sub es1) ∈ es) (hr : RReaches es1 path es2) :
      RReaches es (k :: path) es2

/-! ## Freeze model for `createRouter` (`router.ts` lines 19-24)

`createRouter` performs exactly three `Object.freeze` calls: on the `_def`
wrapper, on the record, and on the returned router object.  Nested routers
were themselves built by `createRouter` earlier, so their three objects are
frozen too.  Procedure definition objects (the literals returned by `make` in
`procedure.ts` lines 86-114) are never passed to `Object.freeze` anywhere.
Object positions in the tree are named by the entry-name path from the root
plus a tag for which object at that position is meant. -/

/-- Which object at a tree position is meant. -/
inductive FrTag where
  | routerObj
  | defObj
  | recordObj
  | procObj
deriving DecidableEq, Repr

/-- Objects frozen after constructing the tree, with every router node built by
`createRouter`: at each router position, the router wrapper, its `_def`, and
its record. -/
def frozenPositions {P : Type} : List (String × RNode P) → List (List String × FrTag)
  | es => (([], FrTag.routerObj) :: ([], FrTag.defObj) :: ([], FrTag.recordObj) ::
      frozenBelow es)
where
  /-- Frozen objects contributed by the sub-routers of an entry list. -/
  frozenBelow : List (String × RNode P) → List (List String × FrTag)
  | [] => []
  | (k, RNode.sub es1) :: rest =>
    (frozenPositions es1).map (fun q => (k :: q.1, q.2)) ++ frozenBelow rest
  | (_, RNode.proc _) :: rest => frozenBelow rest
  | (_, RNode.other) :: rest => frozenBelow rest

/-- Objects reachable from a router's record: the three objects of every router
position, plus the procedure definition object of every procedure entry. -/
def reachablePositions {P : Type} : List (String × RNode P) → List (List String × FrTag)
  | es => (([], FrTag.routerObj) :: ([], FrTag.defObj) :: ([], FrTag.recordObj) ::
      reachableBelow es)
where
  /-- Reachable objects contributed by the entries of a record. -/
  reachableBelow : List (String × RNode P) → List (List String × FrTag)
  | [] => []
  | (k, RNode.sub es1) :: rest =>
    (reachablePositions es1).map (fun q => (k :: q.1, q.2)) ++ reachableBelow rest
  | (k, RNode.proc _) :: rest => ([k], FrTag.procObj) :: reachableBelow rest
  | (_, RNode.other) :: rest => reachableBelow rest

/-! ## Observation helpers for the middleware claims -/

/-- Context seen by successive forwarding middlewares: each stage runs under the
context its predecessor supplied to `next`, or the predecessor's incoming
context when `next` was called without one (`opts?.ctx ?? nextCtx`).
`chainFinal fs ctx` is the context after the whole chain, i.e. the one the
resolver receives. -/
def chainFinal {Ctx : Type} : List (Ctx → Option Ctx) → Ctx → Ctx
  | [], c => c
  | f :: rest, c => chainFinal rest ((f c).getD c)

/-- Expected `start` events of a forwarding chain beginning at index `i` with
context `c`: declaration order, each with the context handed down by its
predecessor. -/
def startsFrom {Ctx V : Type} : Nat → List (Ctx → Option Ctx) → Ctx → List (Ev Ctx V)
  | _, [], _ => []
  | i, f :: rest, c => .start i c :: startsFrom (i + 1) rest ((f c).getD c)

/-- Expected `finish` events of `n` forwarding middlewares beginning at index
`i`: reverse declaration order `i + n - 1, …, i`. -/
def finishesFrom {Ctx V : Type} : Nat → Nat → List (Ev Ctx V)
  | _, 0 => []
  | i, n + 1 => finishesFrom (i + 1) n ++ [.finish i]

/-- User-resolver invocations recorded in a trace, with the context and input
each one received. -/
def callUserEvents {Ctx V : Type} (tr : List (Ev Ctx V)) : List (Ctx × V) :=
  tr.filterMap fun e =>
    match e with
    | .callUser c v => some (c, v)
    | _ => none

/-- Resolver-closure invocations recorded in a trace. -/
def resolveEvents {Ctx V : Type} (tr : List (Ev Ctx V)) : List Ctx :=
  tr.filterMap fun e =>
    match e with
    | .resolve c => some c
    | _ => none

/-- Indices of middleware activations recorded in a trace. -/
def startIndices {Ctx V : Type} (tr : List (Ev Ctx V)) : List Nat :=
  tr.filterMap fun e =>
    match e with
    | .start i _ => some i
    | _ => none

/-- Reference semantics of `_call` written from the specification's words
(§4.4): with validation `'on'`, parse the raw input (a failure returns the
mapped error envelope), call the user resolver with the validated input, and
when its result is `ok` parse the output data and substitute it; with
validation `'off'`, hand the raw input to the resolver unchanged and return
its `ok` result without output parsing; any thrown value is mapped through
`rpcToErr`.  `fin` is the context the resolver receives. -/
def specCall {Ctx V : Type} (S T : SchemaV V) (vm : VMode)
    (userRes : Ctx → V → Except UnknownV (RPCRes V)) (fin : Ctx) (raw : V) : RPCRes V :=
  match vm with
  | .off =>
    match userRes fin raw with
    | .error e => (rpcToErr V e).1
    | .ok out => out
  | .on =>
    match parseInput S raw with
    | .error e => (rpcToErr V e).1
    | .ok v =>
      match userRes fin v with
      | .error e => (rpcToErr V e).1
      | .ok (.err c p) => .err c p
      | .ok (.ok d code) =>
        match parseOutput T d with
        | .error e => (rpcToErr V e).1
        | .ok d1 => .ok d1 code

/-! ## Specification helpers for the router index -/

/-- Pairs `(dotted key, procedure)` produced by the depth-first visit, in `set`
order. -/
def procPairs {P : Type} : List (String × RNode P) → List String → List (String × P)
  | [], _ => []
  | (k, RNode.proc p) :: rest, pre => (joinPath (pre ++ [k]), p) :: procPairs rest pre
  | (k, RNode.sub es) :: rest, pre => procPairs es (pre ++ [k]) ++ procPairs rest pre
  | (_, RNode.other) :: rest, pre => procPairs rest pre
termination_by es _ => sizeOf es
decreasing_by all_goals (simp_wf; try omega)

/-- Value of the most recent pair with the given key (the value a JavaScript
`Map` holds after `set`ting every pair in order). -/
def lastVal {α : Type} : List (String × α) → String → Option α
  | [], _ => none
  | (k, v) :: rest, q =>
    match lastVal rest q with
    | some w => some w
    | none => if k = q then some v else none

/-! ## Theorems -/

/-- C6: `rpcErrorFrom` classifies every value in exactly three cases: a value
passing the `isRPCError` guard is returned unchanged; any other `Error` value
is converted to an `RPCError` with code `RPC_INTERNAL_SERVER_ERROR`, the
original error's message kept as the message and the original error kept as
the cause (with empty issues); any non-error value is converted to an
`RPCError` with code `RPC_INTERNAL_SERVER_ERROR`, message `"Unknown error"`,
and the original value as cause. -/
theorem c6_rpcErrorFrom_classification (e : UnknownV) :
    (isRPCError e = true → rpcErrorFrom e = e) ∧
    (∀ n m c iss cs, e = UnknownV.err n m c iss cs → isRPCError e = false →
      rpcErrorFrom e =
        UnknownV.err "RPCError" m (some "RPC_INTERNAL_SERVER_ERROR") (some []) (some e)) ∧
    (isJSErrorObj e = false →
      rpcErrorFrom e =
        UnknownV.err "RPCError" "Unknown error" (some "RPC_INTERNAL_SERVER_ERROR")
          (some []) (some e)) := by
  refine ⟨fun h => by simp [rpcErrorFrom, h], ?_, ?_⟩
  · rintro n m c iss cs rfl h
    simp [rpcErrorFrom, h, createRPCError]
  · intro h
    cases e <;> simp_all [rpcErrorFrom, isRPCError, isJSErrorObj, createRPCError]

/-- Witness for C6: one concrete value per classification case. -/
theorem c6_rpcErrorFrom_classification_witness :
    (rpcErrorFrom (UnknownV.err "RPCError" "boom" (some "RPC_NOT_FOUND") (some []) none)
      = UnknownV.err "RPCError" "boom" (some "RPC_NOT_FOUND") (some []) none) ∧
    (rpcErrorFrom (UnknownV.err "TypeError" "bad" none none none)
      = UnknownV.err "RPCError" "bad" (some "RPC_INTERNAL_SERVER_ERROR") (some [])
          (some (UnknownV.err "TypeError" "bad" none none none))) ∧
    (rpcErrorFrom (UnknownV.str "oops")
      = UnknownV.err "RPCError" "Unknown error" (some "RPC_INTERNAL_SERVER_ERROR") (some [])
          (some (UnknownV.str "oops"))) :=
  ⟨(c6_rpcErrorFrom_classification
      (UnknownV.err "RPCError" "boom" (some "RPC_NOT_FOUND") (some []) none)).1 rfl,
   (c6_rpcErrorFrom_classification (UnknownV.err "TypeError" "bad" none none none)).2.1
      "TypeError" "bad" none none none rfl rfl,
   (c6_rpcErrorFrom_classification (UnknownV.str "oops")).2.2 rfl⟩

/-- C10: a thrown `Error` carrying a foreign string `code` (a Node system error
with code `ENOENT`) passes `isRPCError`, is returned unchanged by
`rpcErrorFrom`, and `rpcToErr` produces an error envelope whose code is that
foreign string, paired with HTTP status 500 via the table fallback. -/
theorem c10_foreign_code_passthrough :
    isRPCError (UnknownV.err "Error" "no such file or directory" (some "ENOENT") none none)
      = true ∧
    rpcErrorFrom (UnknownV.err "Error" "no such file or directory" (some "ENOENT") none none)
      = UnknownV.err "Error" "no such file or directory" (some "ENOENT") none none ∧
    rpcToErr Nat (UnknownV.err "Error" "no such file or directory" (some "ENOENT") none none)
      = (RPCRes.err "ENOENT" ⟨"ENOENT", "no such file or directory", []⟩, 500) := by
  refine ⟨rfl, by simp [rpcErrorFrom, isRPCError], ?_⟩
  simp [rpcToErr, rpcErrorFrom, isRPCError, jsCode, jsMessage, jsIssues, rpcErr, RPC_CODES]

/-- C1 (code evaluation): the builder transition `validation(mode)` does not
retain the schemas.  Starting from the default state, `.input(S)` stores the
schema `S`, but the builder returned by `.input(S).validation('off')` holds no
input schema anymore (the middleware list is retained). -/
theorem c1_validation_drops_schemas :
    (stateValidation (stateInput (defaultProcState Nat Nat) (fun v => Except.ok v))
        VMode.off).inputSchema = none ∧
    (stateInput (defaultProcState Nat Nat) (fun v => Except.ok v)).inputSchema
      = some (fun v => Except.ok v) ∧
    (stateValidation (stateInput (defaultProcState Nat Nat) (fun v => Except.ok v))
        VMode.off).middlewares
      = (stateInput (defaultProcState Nat Nat) (fun v => Except.ok v)).middlewares :=
  ⟨rfl, rfl, rfl⟩

/-- Counterexample for C7: an `ok` envelope returned by `_call` with a code
outside the static table is serialized with HTTP status 200 (the `Response`
constructor's default for an `undefined` status), not 500. -/
theorem c7_counterexample :
    fetchStatus Nat (Except.ok (RPCRes.ok 0 "RPC_CUSTOM")) = 200 ∧
    decide (fetchStatus Nat (Except.ok (RPCRes.ok 0 "RPC_CUSTOM")) = 500) = false := by
  exact ⟨rfl, rfl⟩

/-- C7 as amended: for an envelope whose code is in the static table the HTTP
status equals the table's status, on the return path and on the catch path
alike; on the catch path a code outside the table falls back to 500; but on
the return path a code outside the table yields the `Response` default status
200 — the 500 fallback is not applied there. -/
theorem c7_amended_status_mapping (V : Type) :
    (∀ (res : RPCRes V) (s : Nat), RPC_CODES (resCode res) = some s →
      fetchStatus V (Except.ok res) = s) ∧
    (∀ res : RPCRes V, RPC_CODES (resCode res) = none →
      fetchStatus V (Except.ok res) = 200) ∧
    (∀ (e : UnknownV) (s : Nat), RPC_CODES (resCode ((rpcToErr V e).1)) = some s →
      fetchStatus V (Except.error e) = s) ∧
    (∀ e : UnknownV, RPC_CODES (resCode ((rpcToErr V e).1)) = none →
      fetchStatus V (Except.error e) = 500) := by
  refine ⟨?_, ?_, ?_, ?_⟩
  · intro res s h
    simp [fetchStatus, responseStatus, h]
  · intro res h
    simp [fetchStatus, responseStatus, h]
  · intro e s h
    rcases hc : jsCode (rpcErrorFrom e) with _ | c
    · simp [rpcToErr, rpcErr, resCode, hc] at h
      simp [RPC_CODES] at h
    · simp [rpcToErr, rpcErr, resCode, hc] at h
      simp [fetchStatus, rpcToErr, hc, h]
  · intro e h
    rcases hc : jsCode (rpcErrorFrom e) with _ | c
    · simp [fetchStatus, rpcToErr, hc]
    · simp [rpcToErr, rpcErr, resCode, hc] at h
      simp [fetchStatus, rpcToErr, hc, h]

/-- Witness for C7 as amended: a table code on the return path, a foreign code
on the return path, a non-error thrown value on the catch path, and a foreign
coded error on the catch path. -/
theorem c7_amended_status_mapping_witness :
    fetchStatus Nat (Except.ok (RPCRes.ok 0 "RPC_OK")) = 200 ∧
    fetchStatus Nat (Except.ok (RPCRes.ok 0 "X_CODE")) = 200 ∧
    fetchStatus Nat (Except.error (UnknownV.str "s")) = 500 ∧
    fetchStatus Nat (Except.error (UnknownV.err "Error" "e" (some "EACCES") none none)) = 500 :=
  ⟨(c7_amended_status_mapping Nat).1 (RPCRes.ok 0 "RPC_OK") 200 rfl,
   (c7_amended_status_mapping Nat).2.1 (RPCRes.ok 0 "X_CODE") rfl,
   (c7_amended_status_mapping Nat).2.2.1 (UnknownV.str "s") 500 rfl,
   (c7_amended_status_mapping Nat).2.2.2 (UnknownV.err "Error" "e" (some "EACCES") none none) rfl⟩

/-- Counterexample for C9: in the router `{ p: procedure }`, the procedure
definition object is reachable from the record but is not among the objects
frozen by construction — `createRouter` freezes only the wrapper, `_def`, and
record of each router, never the procedure definition objects. -/
theorem c9_counterexample :
    (["p"], FrTag.procObj) ∈ reachablePositions [("p", RNode.proc (0 : Nat))] ∧
    decide ((["p"], FrTag.procObj) ∈ frozenPositions [("p", RNode.proc (0 : Nat))])
      = false := by
  constructor
  · simp [reachablePositions, reachablePositions.reachableBelow]
  · rw [decide_eq_false_iff_not]
    simp [frozenPositions, frozenPositions.frozenBelow]

/-- Lifting a membership description of the below-part to the whole position
list: the three root objects are frozen and are not procedure objects. -/
theorem c9_wrap {P : Type} (es : List (String × RNode P))
    (hbelow : ∀ pos, pos ∈ frozenPositions.frozenBelow es ↔
      pos ∈ reachablePositions.reachableBelow es ∧ pos.2 ≠ FrTag.procObj) :
    ∀ pos, pos ∈ frozenPositions es ↔
      pos ∈ reachablePositions es ∧ pos.2 ≠ FrTag.procObj := by
  intro pos
  simp only [frozenPositions, reachablePositions, List.mem_cons, hbelow pos]
  constructor
  · rintro (rfl | rfl | rfl | ⟨h1, h2⟩)
    · exact ⟨Or.inl rfl, by simp⟩
    · exact ⟨Or.inr (Or.inl rfl), by simp⟩
    · exact ⟨Or.inr (Or.inr (Or.inl rfl)), by simp⟩
    · exact ⟨Or.inr (Or.inr (Or.inr h1)), h2⟩
  · rintro ⟨rfl | rfl | rfl | h1, h2⟩
    · exact Or.inl rfl
    · exact Or.inr (Or.inl rfl)
    · exact Or.inr (Or.inr (Or.inl rfl))
    · exact Or.inr (Or.inr (Or.inr ⟨h1, h2⟩))

/-- Frozen positions are exactly the reachable non-procedure positions, at the
root record and below it. -/
theorem c9_mem_iff {P : Type} :
    ∀ (es : List (String × RNode P)),
      (∀ pos, pos ∈ frozenPositions es ↔
        pos ∈ reachablePositions es ∧ pos.2 ≠ FrTag.procObj) ∧
      (∀ pos, pos ∈ frozenPositions.frozenBelow es ↔
        pos ∈ reachablePositions.reachableBelow es ∧ pos.2 ≠ FrTag.procObj)
  | [] =>
    have hb : ∀ pos : List String × FrTag,
        pos ∈ frozenPositions.frozenBelow ([] : List (String × RNode P)) ↔
        pos ∈ reachablePositions.reachableBelow ([] : List (String × RNode P)) ∧
          pos.2 ≠ FrTag.procObj := by
      intro pos
      simp [frozenPositions.frozenBelow, reachablePositions.reachableBelow]
    ⟨c9_wrap [] hb, hb⟩
  | (k, RNode.proc p) :: rest =>
    have hr := (c9_mem_iff rest).2
    have hb : ∀ pos, pos ∈ frozenPositions.frozenBelow ((k, RNode.proc p) :: rest) ↔
        pos ∈ reachablePositions.reachableBelow ((k, RNode.proc p) :: rest) ∧
          pos.2 ≠ FrTag.procObj := by
      intro pos
      simp only [frozenPositions.frozenBelow, reachablePositions.reachableBelow,
        List.mem_cons, hr pos]
      constructor
      · rintro ⟨h1, h2⟩
        exact ⟨Or.inr h1, h2⟩
      · rintro ⟨rfl | h1, h2⟩
        · exact absurd rfl h2
        · exact ⟨h1, h2⟩
    ⟨c9_wrap _ hb, hb⟩
  | (k, RNode.sub es1) :: rest =>
    have h1 := (c9_mem_iff es1).1
    have hr := (c9_mem_iff rest).2
    have hb : ∀ pos, pos ∈ frozenPositions.frozenBelow ((k, RNode.sub es1) :: rest) ↔
        pos ∈ reachablePositions.reachableBelow ((k, RNode.sub es1) :: rest) ∧
          pos.2 ≠ FrTag.procObj := by
      intro pos
      simp only [frozenPositions.frozenBelow, reachablePositions.reachableBelow,
        List.mem_append, List.mem_map]
      constructor
      · rintro (⟨q, hq, rfl⟩ | h)
        · rcases (h1 q).1 hq with ⟨hq1, hq2⟩
          exact ⟨Or.inl ⟨q, hq1, rfl⟩, hq2⟩
        · rcases (hr pos).1 h with ⟨h3, h4⟩
          exact ⟨Or.inr h3, h4⟩
      · rintro ⟨⟨q, hq, rfl⟩ | h, h2⟩
        · exact Or.inl ⟨q, (h1 q).2 ⟨hq, h2⟩, rfl⟩
        · exact Or.inr ((hr pos).2 ⟨h, h2⟩)
    ⟨c9_wrap _ hb, hb⟩
  | (k, RNode.other) :: rest =>
    have hr := (c9_mem_iff rest).2
    have hb : ∀ pos, pos ∈ frozenPositions.frozenBelow ((k, RNode.other) :: rest) ↔
        pos ∈ reachablePositions.reachableBelow ((k, RNode.other) :: rest) ∧
          pos.2 ≠ FrTag.procObj := by
      intro pos
      simpa [frozenPositions.frozenBelow, reachablePositions.reachableBelow] using hr pos
    ⟨c9_wrap _ hb, hb⟩
termination_by es => sizeOf es
decreasing_by all_goals (simp_wf; try omega)

/-- C9 as amended: the objects frozen by constructing a router tree through
`createRouter` are exactly the reachable non-procedure objects — every router
wrapper, `_def`, and record (nested routers included) is frozen, so record
entries cannot be re-bound; the stored procedure definition objects are not
frozen. -/
theorem c9_amended_deep_freeze {P : Type} (es : List (String × RNode P))
    (pos : List String × FrTag) :
    pos ∈ frozenPositions es ↔
      pos ∈ reachablePositions es ∧ pos.2 ≠ FrTag.procObj :=
  (c9_mem_iff es).1 pos

/-- Any dispatch activation whose index does not exceed the current guard value
throws the re-entry error and leaves the state unchanged. -/
theorem dispatch_guard_le {Ctx V : Type} (res : Ctx → DM Ctx V (RPCRes V))
    (mws : List (MWProg Ctx)) (i : Nat) (c : Ctx) (st : DispatchSt Ctx V)
    (h : (i : Int) ≤ st.idx) :
    dispatch res mws i c st = (.error nextTwiceError, st) := by
  cases mws <;> simp [dispatch, dmBind, guardIdx, h]

/-- Dispatching a chain that begins with forwarding middlewares, when the inner
dispatch of the remainder succeeds: the forwarding prefix contributes its
`start` events outbound and its `finish` events inbound, hands down the
refined contexts, and returns the inner envelope unchanged. -/
theorem dispatch_fwd_append_ok {Ctx V : Type} (res : Ctx → DM Ctx V (RPCRes V))
    (fs : List (Ctx → Option Ctx)) :
    ∀ (tail : List (MWProg Ctx)) (i : Nat) (ctx : Ctx) (st : DispatchSt Ctx V)
      (data : RPCRes V) (st2 : DispatchSt Ctx V),
      st.idx = (i : Int) - 1 →
      dispatch res tail (i + fs.length) (chainFinal fs ctx)
          ⟨(i : Int) + fs.length - 1, st.trace ++ startsFrom i fs ctx⟩ = (.ok data, st2) →
      dispatch res (fs.map MWProg.fwd ++ tail) i ctx st =
        (.ok data, ⟨st2.idx, st2.trace ++ finishesFrom i fs.length⟩) := by
  induction fs with
  | nil =>
    intro tail i ctx st data st2 h h2
    obtain ⟨idx, tr⟩ := st
    simp only at h
    subst h
    simp only [List.length_nil, Nat.add_zero, Int.Nat.cast_ofNat_Int, startsFrom,
      List.append_nil, Nat.cast_zero, Int.add_zero, chainFinal] at h2 ⊢
    simp only [List.map_nil, List.nil_append, finishesFrom, List.append_nil]
    rw [h2]
  | cons f rest ih =>
    intro tail i ctx st data st2 h h2
    obtain ⟨idx, tr⟩ := st
    simp only at h
    subst h
    have hnat : i + (f :: rest).length = (i + 1) + rest.length := by
      simp [List.length_cons]; omega
    have hint : (i : Int) + ((f :: rest).length : Int) - 1
        = ((i + 1 : Nat) : Int) + (rest.length : Int) - 1 := by
      simp [List.length_cons]; omega
    rw [hnat, hint] at h2
    have htr : tr ++ startsFrom i (f :: rest) ctx
        = (tr ++ [Ev.start i ctx]) ++ startsFrom (i + 1) rest ((f ctx).getD ctx) := by
      simp [startsFrom]
    rw [show chainFinal (f :: rest) ctx = chainFinal rest ((f ctx).getD ctx) from rfl,
      htr] at h2
    have hih := ih tail (i + 1) ((f ctx).getD ctx) ⟨(i : Int), tr ++ [Ev.start i ctx]⟩
      data st2 (by show (i:Int) = ((i+1:Nat):Int) - 1; omega) h2
    have hguard : ¬ ((i : Int) ≤ (i : Int) - 1) := by omega
    simp only [List.map_cons, List.cons_append, dispatch, dmBind, guardIdx, hguard,
      if_false, dmEmit, runMW, dmPure, List.append_eq, hih, finishesFrom,
      List.length_cons]
    try simp [List.append_assoc]

/-- Dispatching a chain that begins with forwarding middlewares, when the inner
dispatch of the remainder throws: the thrown value and the state at the throw
propagate through the prefix unchanged (no `finish` events are recorded). -/
theorem dispatch_fwd_append_error {Ctx V : Type} (res : Ctx → DM Ctx V (RPCRes V))
    (fs : List (Ctx → Option Ctx)) :
    ∀ (tail : List (MWProg Ctx)) (i : Nat) (ctx : Ctx) (st : DispatchSt Ctx V)
      (e : UnknownV) (st2 : DispatchSt Ctx V),
      st.idx = (i : Int) - 1 →
      dispatch res tail (i + fs.length) (chainFinal fs ctx)
          ⟨(i : Int) + fs.length - 1, st.trace ++ startsFrom i fs ctx⟩ = (.error e, st2) →
      dispatch res (fs.map MWProg.fwd ++ tail) i ctx st = (.error e, st2) := by
  induction fs with
  | nil =>
    intro tail i ctx st e st2 h h2
    obtain ⟨idx, tr⟩ := st
    simp only at h
    subst h
    simp only [List.length_nil, Nat.add_zero, startsFrom, List.append_nil,
      Nat.cast_zero, Int.add_zero, chainFinal] at h2 ⊢
    simp only [List.map_nil, List.nil_append]
    rw [h2]
  | cons f rest ih =>
    intro tail i ctx st e st2 h h2
    obtain ⟨idx, tr⟩ := st
    simp only at h
    subst h
    have hnat : i + (f :: rest).length = (i + 1) + rest.length := by
      simp [List.length_cons]; omega
    have hint : (i : Int) + ((f :: rest).length : Int) - 1
        = ((i + 1 : Nat) : Int) + (rest.length : Int) - 1 := by
      simp [List.length_cons]; omega
    rw [hnat, hint] at h2
    have htr : tr ++ startsFrom i (f :: rest) ctx
        = (tr ++ [Ev.start i ctx]) ++ startsFrom (i + 1) rest ((f ctx).getD ctx) := by
      simp [startsFrom]
    rw [show chainFinal (f :: rest) ctx = chainFinal rest ((f ctx).getD ctx) from rfl,
      htr] at h2
    have hih := ih tail (i + 1) ((f ctx).getD ctx) ⟨(i : Int), tr ++ [Ev.start i ctx]⟩
      e st2 (by show (i:Int) = ((i+1:Nat):Int) - 1; omega) h2
    have hguard : ¬ ((i : Int) ≤ (i : Int) - 1) := by omega
    simp only [List.map_cons, List.cons_append, dispatch, dmBind, guardIdx, hguard,
      if_false, dmEmit, runMW, dmPure, List.append_eq, hih]

/-- C4: for a chain in which every middleware calls `next` exactly once, the
composed dispatch produces exactly the trace
`start 0, …, start (n-1), resolve, finish (n-1), …, finish 0`: middlewares
start in declaration order, each stage receives the context its predecessor
supplied to `next` (or the predecessor's incoming context when `next` carried
none — `chainFinal`/`startsFrom` accumulate exactly `opts?.ctx ?? nextCtx`),
the resolver runs once after the last middleware with the final context, the
post-`next` continuations complete in reverse order, and the resolver's
envelope is returned. -/
theorem c4_dispatch_order {Ctx V : Type} (fs : List (Ctx → Option Ctx)) (ctx : Ctx)
    (r : Ctx → RPCRes V) :
    composeMiddlewares (fs.map MWProg.fwd) ctx (fun c => dmPure (r c)) =
      (.ok (r (chainFinal fs ctx)),
       ⟨(fs.length : Int),
        startsFrom 0 fs ctx ++
          Ev.resolve (chainFinal fs ctx) :: finishesFrom 0 fs.length⟩) := by
  have hcond : ¬ (((0 + fs.length : Nat) : Int) ≤ (0 : Int) + (fs.length : Int) - 1) := by
    omega
  have hres : dispatch (fun c => dmPure (r c)) ([] : List (MWProg Ctx)) (0 + fs.length)
      (chainFinal fs ctx)
      ⟨(0 : Int) + (fs.length : Int) - 1,
       ([] : List (Ev Ctx V)) ++ startsFrom 0 fs ctx⟩ =
      (.ok (r (chainFinal fs ctx)),
       ⟨(fs.length : Int),
        startsFrom 0 fs ctx ++ [Ev.resolve (chainFinal fs ctx)]⟩) := by
    simp [dispatch, dmBind, guardIdx, dmEmit, dmPure, hcond]
  have hmain := dispatch_fwd_append_ok (fun c => dmPure (r c)) fs [] 0 ctx ⟨-1, []⟩
    (r (chainFinal fs ctx))
    ⟨(fs.length : Int), startsFrom 0 fs ctx ++ [Ev.resolve (chainFinal fs ctx)]⟩
    (by show (-1 : Int) = ((0 : Nat) : Int) - 1; omega) hres
  simpa [composeMiddlewares, List.append_assoc] using hmain

/-- Splitting an observation over an appended trace. -/
theorem resolveEvents_append {Ctx V : Type} (xs ys : List (Ev Ctx V)) :
    resolveEvents (xs ++ ys) = resolveEvents xs ++ resolveEvents ys := by
  simp [resolveEvents]

/-- A `start` event records no resolver invocation. -/
theorem resolveEvents_cons_start {Ctx V : Type} (i : Nat) (c : Ctx)
    (tr : List (Ev Ctx V)) :
    resolveEvents (Ev.start i c :: tr) = resolveEvents tr := by
  simp [resolveEvents, List.filterMap_cons]

/-- A `finish` event records no resolver invocation. -/
theorem resolveEvents_cons_finish {Ctx V : Type} (i : Nat) (tr : List (Ev Ctx V)) :
    resolveEvents (Ev.finish i :: tr) = resolveEvents tr := by
  simp [resolveEvents, List.filterMap_cons]

/-- Splitting an observation over an appended trace. -/
theorem callUserEvents_append {Ctx V : Type} (xs ys : List (Ev Ctx V)) :
    callUserEvents (xs ++ ys) = callUserEvents xs ++ callUserEvents ys := by
  simp [callUserEvents]

/-- A `start` event records no user-resolver invocation. -/
theorem callUserEvents_cons_start {Ctx V : Type} (i : Nat) (c : Ctx)
    (tr : List (Ev Ctx V)) :
    callUserEvents (Ev.start i c :: tr) = callUserEvents tr := by
  simp [callUserEvents, List.filterMap_cons]

/-- A `finish` event records no user-resolver invocation. -/
theorem callUserEvents_cons_finish {Ctx V : Type} (i : Nat) (tr : List (Ev Ctx V)) :
    callUserEvents (Ev.finish i :: tr) = callUserEvents tr := by
  simp [callUserEvents, List.filterMap_cons]

/-- A `resolve` event records no user-resolver invocation. -/
theorem callUserEvents_cons_resolve {Ctx V : Type} (c : Ctx) (tr : List (Ev Ctx V)) :
    callUserEvents (Ev.resolve c :: tr) = callUserEvents tr := by
  simp [callUserEvents, List.filterMap_cons]

/-- A `callUser` event records the context and input it carries. -/
theorem callUserEvents_cons_callUser {Ctx V : Type} (c : Ctx) (v : V)
    (tr : List (Ev Ctx V)) :
    callUserEvents (Ev.callUser c v :: tr) = (c, v) :: callUserEvents tr := by
  simp [callUserEvents, List.filterMap_cons]

/-- Splitting an observation over an appended trace. -/
theorem startIndices_append {Ctx V : Type} (xs ys : List (Ev Ctx V)) :
    startIndices (xs ++ ys) = startIndices xs ++ startIndices ys := by
  simp [startIndices]

/-- A `start` event records its index. -/
theorem startIndices_cons_start {Ctx V : Type} (i : Nat) (c : Ctx)
    (tr : List (Ev Ctx V)) :
    startIndices (Ev.start i c :: tr) = i :: startIndices tr := by
  simp [startIndices, List.filterMap_cons]

/-- A `finish` event records no activation index. -/
theorem startIndices_cons_finish {Ctx V : Type} (i : Nat) (tr : List (Ev Ctx V)) :
    startIndices (Ev.finish i :: tr) = startIndices tr := by
  simp [startIndices, List.filterMap_cons]

/-- An empty trace records nothing. -/
theorem resolveEvents_nil {Ctx V : Type} : resolveEvents ([] : List (Ev Ctx V)) = [] := rfl

/-- An empty trace records nothing. -/
theorem callUserEvents_nil {Ctx V : Type} : callUserEvents ([] : List (Ev Ctx V)) = [] := rfl

/-- An empty trace records nothing. -/
theorem startIndices_nil {Ctx V : Type} : startIndices ([] : List (Ev Ctx V)) = [] := rfl

/-- Forwarding-prefix traces contain no resolver invocation. -/
theorem resolveEvents_startsFrom {Ctx V : Type} (i : Nat) (fs : List (Ctx → Option Ctx))
    (c : Ctx) : resolveEvents (@startsFrom Ctx V i fs c) = [] := by
  induction fs generalizing i c with
  | nil => rfl
  | cons f rest ih =>
    rw [startsFrom, resolveEvents_cons_start]
    exact ih (i + 1) ((f c).getD c)

/-- Finish-event runs contain no resolver invocation. -/
theorem resolveEvents_finishesFrom {Ctx V : Type} (i n : Nat) :
    resolveEvents (@finishesFrom Ctx V i n) = [] := by
  induction n generalizing i with
  | zero => rfl
  | succ n ih =>
    rw [finishesFrom, resolveEvents_append, ih (i + 1)]
    rfl

/-- Forwarding-prefix traces contain no user-resolver invocation. -/
theorem callUserEvents_startsFrom {Ctx V : Type} (i : Nat)
    (fs : List (Ctx → Option Ctx)) (c : Ctx) :
    callUserEvents (@startsFrom Ctx V i fs c) = [] := by
  induction fs generalizing i c with
  | nil => rfl
  | cons f rest ih =>
    rw [startsFrom, callUserEvents_cons_start]
    exact ih (i + 1) ((f c).getD c)

/-- Finish-event runs contain no user-resolver invocation. -/
theorem callUserEvents_finishesFrom {Ctx V : Type} (i n : Nat) :
    callUserEvents (@finishesFrom Ctx V i n) = [] := by
  induction n generalizing i with
  | zero => rfl
  | succ n ih =>
    rw [finishesFrom, callUserEvents_append, ih (i + 1)]
    rfl

/-- Finish-event runs record no middleware activation. -/
theorem startIndices_finishesFrom {Ctx V : Type} (i n : Nat) :
    startIndices (@finishesFrom Ctx V i n) = [] := by
  induction n generalizing i with
  | zero => rfl
  | succ n ih =>
    rw [finishesFrom, startIndices_append, ih (i + 1)]
    rfl

/-- Activations recorded by a forwarding prefix beginning at `i` have indices
below `i` plus the prefix length. -/
theorem startIndices_startsFrom_lt {Ctx V : Type} (i : Nat)
    (fs : List (Ctx → Option Ctx)) (c : Ctx) :
    ∀ j ∈ startIndices (@startsFrom Ctx V i fs c), j < i + fs.length := by
  induction fs generalizing i c with
  | nil => simp [startsFrom, startIndices]
  | cons f rest ih =>
    intro j hj
    rw [startsFrom, startIndices_cons_start] at hj
    rcases List.mem_cons.mp hj with rfl | hj
    · simp [List.length_cons]
    · have := ih (i + 1) ((f c).getD c) j hj
      simp only [List.length_cons]
      omega

/-- C3: when a middleware returns `{ ok: false, error }` with a typed RPC error
(an `Error` with a string `code` and an `issues` array) and every middleware
before it forwards, the composed dispatch returns an error envelope whose
code, message, and issues equal those of the returned error exactly — the code
is never rewritten to `RPC_INTERNAL_SERVER_ERROR` — and neither the
middlewares after it (no `start` index beyond it) nor the resolver (no
`resolve` or user-resolver event) are invoked. -/
theorem c3_short_circuit_preserves_error {Ctx V : Type} (fs : List (Ctx → Option Ctx))
    (rest : List (MWProg Ctx)) (n m c : String) (iss : List Issue)
    (cs : Option UnknownV) (ctx : Ctx) (r : Ctx → RPCRes V) :
    composeMiddlewares
        (fs.map MWProg.fwd ++
          MWProg.halt (UnknownV.err n m (some c) (some iss) cs) :: rest)
        ctx (fun cx => dmPure (r cx)) =
      (.ok (RPCRes.err c ⟨c, m, iss⟩),
       ⟨(fs.length : Int),
        startsFrom 0 fs ctx ++
          Ev.start fs.length (chainFinal fs ctx) ::
            Ev.finish fs.length :: finishesFrom 0 fs.length⟩) ∧
    resolveEvents
      (composeMiddlewares
        (fs.map MWProg.fwd ++
          MWProg.halt (UnknownV.err n m (some c) (some iss) cs) :: rest)
        ctx (fun cx => dmPure (r cx))).2.trace = [] ∧
    callUserEvents
      (composeMiddlewares
        (fs.map MWProg.fwd ++
          MWProg.halt (UnknownV.err n m (some c) (some iss) cs) :: rest)
        ctx (fun cx => dmPure (r cx))).2.trace = [] ∧
    (∀ j ∈ startIndices
      (composeMiddlewares
        (fs.map MWProg.fwd ++
          MWProg.halt (UnknownV.err n m (some c) (some iss) cs) :: rest)
        ctx (fun cx => dmPure (r cx))).2.trace, j ≤ fs.length) := by
  have hcond : ¬ (((0 + fs.length : Nat) : Int) ≤ (0 : Int) + (fs.length : Int) - 1) := by
    omega
  have hhalt : dispatch (fun cx => dmPure (r cx))
      (MWProg.halt (UnknownV.err n m (some c) (some iss) cs) :: rest) (0 + fs.length)
      (chainFinal fs ctx)
      ⟨(0 : Int) + (fs.length : Int) - 1,
       ([] : List (Ev Ctx V)) ++ startsFrom 0 fs ctx⟩ =
      (.ok (RPCRes.err c ⟨c, m, iss⟩),
       ⟨(fs.length : Int),
        startsFrom 0 fs ctx ++
          [Ev.start fs.length (chainFinal fs ctx), Ev.finish fs.length]⟩) := by
    simp [dispatch, dmBind, guardIdx, dmEmit, runMW, dmPure, hcond, isRPCError,
      jsCode, jsMessage, jsIssues, rpcErr]
  have hmain := dispatch_fwd_append_ok (fun cx => dmPure (r cx)) fs
    (MWProg.halt (UnknownV.err n m (some c) (some iss) cs) :: rest) 0 ctx ⟨-1, []⟩
    (RPCRes.err c ⟨c, m, iss⟩)
    ⟨(fs.length : Int),
     startsFrom 0 fs ctx ++
       [Ev.start fs.length (chainFinal fs ctx), Ev.finish fs.length]⟩
    (by show (-1 : Int) = ((0 : Nat) : Int) - 1; omega) hhalt
  have heq : composeMiddlewares
      (fs.map MWProg.fwd ++
        MWProg.halt (UnknownV.err n m (some c) (some iss) cs) :: rest)
      ctx (fun cx => dmPure (r cx)) =
      (.ok (RPCRes.err c ⟨c, m, iss⟩),
       ⟨(fs.length : Int),
        startsFrom 0 fs ctx ++
          Ev.start fs.length (chainFinal fs ctx) ::
            Ev.finish fs.length :: finishesFrom 0 fs.length⟩) := by
    simpa [composeMiddlewares, List.append_assoc] using hmain
  refine ⟨heq, ?_, ?_, ?_⟩
  · rw [heq]
    simp [resolveEvents_append, resolveEvents_cons_start, resolveEvents_cons_finish,
      resolveEvents_startsFrom, resolveEvents_finishesFrom]
  · rw [heq]
    simp [callUserEvents_append, callUserEvents_cons_start, callUserEvents_cons_finish,
      callUserEvents_startsFrom, callUserEvents_finishesFrom]
  · rw [heq]
    intro j hj
    simp only [startIndices_append, startIndices_cons_start, startIndices_cons_finish,
      startIndices_finishesFrom, List.mem_append, List.append_nil] at hj
    rcases hj with hj | hj
    · have := startIndices_startsFrom_lt 0 fs ctx j hj
      omega
    · rcases List.mem_cons.mp hj with rfl | hj
      · exact le_refl _
      · simp at hj

/-- Witness for C3: one forwarding middleware, then a short-circuiting one
returning a typed `RPC_UNAUTHORIZED` error; the envelope keeps code, message,
and issues, and only activations 0 and 1 appear. -/
theorem c3_short_circuit_preserves_error_witness :
    (@composeMiddlewares Nat Nat
        ([fun (c : Nat) => some (c + 1)].map MWProg.fwd ++
          MWProg.halt (UnknownV.err "RPCError" "denied" (some "RPC_UNAUTHORIZED")
            (some []) none) :: [])
        0 (fun cx => dmPure (RPCRes.ok cx "RPC_OK")) =
      (.ok (RPCRes.err "RPC_UNAUTHORIZED" ⟨"RPC_UNAUTHORIZED", "denied", []⟩),
       ⟨(1 : Int), [Ev.start 0 0, Ev.start 1 1, Ev.finish 1, Ev.finish 0]⟩)) ∧
    1 ≤ ([fun (c : Nat) => some (c + 1)] : List (Nat → Option Nat)).length := by
  have h := c3_short_circuit_preserves_error [fun (c : Nat) => some (c + 1)] []
    "RPCError" "denied" "RPC_UNAUTHORIZED" [] none 0
    (fun cx => RPCRes.ok cx "RPC_OK")
  have h1 := h.1
  refine ⟨by simpa [startsFrom, finishesFrom, chainFinal] using h1, ?_⟩
  refine h.2.2.2 1 ?_
  rw [h1]
  decide

/-- Running a purely forwarding chain from index `i`: every stage starts in
order, the resolver runs once with the final context, and the continuations
finish in reverse order. -/
theorem dispatch_fwd_run {Ctx V : Type} (r : Ctx → RPCRes V)
    (gs : List (Ctx → Option Ctx)) (i : Nat) (fin : Ctx) (st : DispatchSt Ctx V)
    (h : st.idx = (i : Int) - 1) :
    dispatch (fun c => dmPure (r c)) (gs.map MWProg.fwd) i fin st =
      (.ok (r (chainFinal gs fin)),
       ⟨((i + gs.length : Nat) : Int),
        st.trace ++ startsFrom i gs fin ++
          Ev.resolve (chainFinal gs fin) :: finishesFrom i gs.length⟩) := by
  have hcond : ¬ (((i + gs.length : Nat) : Int) ≤ (i : Int) + (gs.length : Int) - 1) := by
    omega
  have hres : dispatch (fun c => dmPure (r c)) ([] : List (MWProg Ctx)) (i + gs.length)
      (chainFinal gs fin)
      ⟨(i : Int) + (gs.length : Int) - 1, st.trace ++ startsFrom i gs fin⟩ =
      (.ok (r (chainFinal gs fin)),
       ⟨((i + gs.length : Nat) : Int),
        (st.trace ++ startsFrom i gs fin) ++ [Ev.resolve (chainFinal gs fin)]⟩) := by
    simp [dispatch, dmBind, guardIdx, dmEmit, dmPure, hcond]
  have hmain := dispatch_fwd_append_ok (fun c => dmPure (r c)) gs [] i fin st
    (r (chainFinal gs fin))
    ⟨((i + gs.length : Nat) : Int),
     (st.trace ++ startsFrom i gs fin) ++ [Ev.resolve (chainFinal gs fin)]⟩ h hres
  simpa [List.append_assoc] using hmain

/-- A `dbl` middleware — one that invokes its `next` callable twice in a single
activation — makes the whole dispatch reject with the re-entry error: the
second `next()` hits the guard, whose index was advanced past the middleware
by the first run, and nothing catches the throw. -/
theorem dispatch_dbl_throws {Ctx V : Type} (r : Ctx → RPCRes V)
    (gs : List (Ctx → Option Ctx)) (i : Nat) (fin : Ctx) (st : DispatchSt Ctx V)
    (h : st.idx = (i : Int) - 1) :
    dispatch (fun c => dmPure (r c)) (MWProg.dbl :: gs.map MWProg.fwd) i fin st
      = (.error nextTwiceError,
         ⟨((i + 1 + gs.length : Nat) : Int),
          st.trace ++ [Ev.start i fin] ++ startsFrom (i + 1) gs fin ++
            Ev.resolve (chainFinal gs fin) :: finishesFrom (i + 1) gs.length⟩) := by
  have hguard : ¬ ((i : Int) ≤ st.idx) := by omega
  have h1 := dispatch_fwd_run r gs (i + 1) fin ⟨(i : Int), st.trace ++ [Ev.start i fin]⟩
    (by show (i : Int) = ((i + 1 : Nat) : Int) - 1; omega)
  have h2 := dispatch_guard_le (fun c => dmPure (r c)) (gs.map MWProg.fwd) (i + 1) fin
    ⟨((i + 1 + gs.length : Nat) : Int),
     st.trace ++ [Ev.start i fin] ++ startsFrom (i + 1) gs fin ++
       Ev.resolve (chainFinal gs fin) :: finishesFrom (i + 1) gs.length⟩
    (by show ((i + 1 : Nat) : Int) ≤ ((i + 1 + gs.length : Nat) : Int); omega)
  simp only [dispatch, dmBind, guardIdx, hguard, if_false, dmEmit, runMW, dmPure,
    List.append_eq, Option.getD_none, h1, h2]

/-- C5: if a middleware invokes its `next` callable a second time during one
activation — here after forwarding prefixes `fs` and with suffix `gs` — the
second invocation fails with the deterministic error
`new Error('next() called multiple times')`, which rejects the whole
dispatch. -/
theorem c5_next_called_twice {Ctx V : Type} (fs gs : List (Ctx → Option Ctx))
    (ctx : Ctx) (r : Ctx → RPCRes V) :
    (composeMiddlewares (fs.map MWProg.fwd ++ MWProg.dbl :: gs.map MWProg.fwd) ctx
        (fun c => dmPure (r c))).1 = .error nextTwiceError := by
  have hdbl := dispatch_dbl_throws r gs (0 + fs.length) (chainFinal fs ctx)
    ⟨(0 : Int) + (fs.length : Int) - 1, ([] : List (Ev Ctx V)) ++ startsFrom 0 fs ctx⟩
    (by show (0 : Int) + (fs.length : Int) - 1 = ((0 + fs.length : Nat) : Int) - 1; omega)
  have hmain := dispatch_fwd_append_error (fun c => dmPure (r c)) fs
    (MWProg.dbl :: gs.map MWProg.fwd) 0 ctx ⟨-1, []⟩ nextTwiceError _
    (by show (-1 : Int) = ((0 : Nat) : Int) - 1; omega) hdbl
  simp [composeMiddlewares, hmain]

/-- Dispatching a forwarding chain whose resolver is the per-request closure
`resolverWithInput`: the closure runs once with the final context, records the
user-resolver invocation, and its outcome `w` — fulfilled envelope or thrown
value — determines the result and the final trace. -/
theorem dispatch_fwd_rwi {Ctx V : Type} (stp : ProcState Ctx V)
    (userRes : Ctx → V → Except UnknownV (RPCRes V)) (v : V)
    (fs : List (Ctx → Option Ctx)) (ctx : Ctx) (w : Except UnknownV (RPCRes V))
    (hw : ∀ stX : DispatchSt Ctx V,
      resolverWithInput stp userRes v (chainFinal fs ctx) stX
        = (w, ⟨stX.idx, stX.trace ++ [Ev.callUser (chainFinal fs ctx) v]⟩)) :
    dispatch (resolverWithInput stp userRes v) (fs.map MWProg.fwd) 0 ctx ⟨-1, []⟩ =
      (match w with
       | .ok out => (.ok out,
          ⟨(fs.length : Int),
           startsFrom 0 fs ctx ++
             Ev.resolve (chainFinal fs ctx) ::
               Ev.callUser (chainFinal fs ctx) v :: finishesFrom 0 fs.length⟩)
       | .error e => (.error e,
          ⟨(fs.length : Int),
           startsFrom 0 fs ctx ++
             [Ev.resolve (chainFinal fs ctx), Ev.callUser (chainFinal fs ctx) v]⟩)) := by
  have hcond : ¬ (((0 + fs.length : Nat) : Int) ≤ (0 : Int) + (fs.length : Int) - 1) := by
    omega
  have hinner : dispatch (resolverWithInput stp userRes v) ([] : List (MWProg Ctx))
      (0 + fs.length) (chainFinal fs ctx)
      ⟨(0 : Int) + (fs.length : Int) - 1,
       ([] : List (Ev Ctx V)) ++ startsFrom 0 fs ctx⟩ =
      (w, ⟨((0 + fs.length : Nat) : Int),
           (([] ++ startsFrom 0 fs ctx) ++ [Ev.resolve (chainFinal fs ctx)]) ++
             [Ev.callUser (chainFinal fs ctx) v]⟩) := by
    simp only [dispatch, dmBind, guardIdx, hcond, if_false, dmEmit, dmPure]
    rw [hw]
  cases w with
  | ok out =>
    have hmain := dispatch_fwd_append_ok (resolverWithInput stp userRes v) fs [] 0 ctx
      ⟨-1, []⟩ out
      ⟨((0 + fs.length : Nat) : Int),
       (([] ++ startsFrom 0 fs ctx) ++ [Ev.resolve (chainFinal fs ctx)]) ++
         [Ev.callUser (chainFinal fs ctx) v]⟩
      (by show (-1 : Int) = ((0 : Nat) : Int) - 1; omega) hinner
    simpa [List.append_assoc] using hmain
  | error e =>
    have hmain := dispatch_fwd_append_error (resolverWithInput stp userRes v) fs [] 0 ctx
      ⟨-1, []⟩ e
      ⟨((0 + fs.length : Nat) : Int),
       (([] ++ startsFrom 0 fs ctx) ++ [Ev.resolve (chainFinal fs ctx)]) ++
         [Ev.callUser (chainFinal fs ctx) v]⟩
      (by show (-1 : Int) = ((0 : Nat) : Int) - 1; omega) hinner
    simpa [List.append_assoc] using hmain

/-- C2: for a procedure whose builder state holds an input schema and an output
schema (and forwarding middlewares), `_call` behaves exactly as the
specification's words prescribe (`specCall`): with validation `'on'` the raw
input is parsed before the resolver is invoked and the `ok` output is parsed;
with `'off'` the raw input reaches the resolver unchanged and the `ok` result
is returned without output parsing.  The recorded user-resolver invocations
show which input the resolver received: none when input parsing fails, the
parsed value when validation is `'on'`, and the raw value when it is
`'off'`. -/
theorem c2_call_validation_gating {Ctx V : Type} (S T : SchemaV V) (vm : VMode)
    (fs : List (Ctx → Option Ctx)) (userRes : Ctx → V → Except UnknownV (RPCRes V))
    (ctx : Ctx) (raw : V) :
    (procCall ⟨fs.map MWProg.fwd, some S, some T, some vm⟩ userRes ctx raw).1
      = specCall S T vm userRes (chainFinal fs ctx) raw ∧
    callUserEvents
      (procCall ⟨fs.map MWProg.fwd, some S, some T, some vm⟩ userRes ctx raw).2.trace
      = (match vm, S raw with
         | VMode.on, .error _ => []
         | VMode.on, .ok v => [(chainFinal fs ctx, v)]
         | VMode.off, _ => [(chainFinal fs ctx, raw)]) := by
  cases vm with
  | «off» =>
    cases hu : userRes (chainFinal fs ctx) raw with
    | error e =>
      have hw : ∀ stX : DispatchSt Ctx V,
          resolverWithInput ⟨fs.map MWProg.fwd, some S, some T, some VMode.off⟩
            userRes raw (chainFinal fs ctx) stX
          = (.error e, ⟨stX.idx, stX.trace ++ [Ev.callUser (chainFinal fs ctx) raw]⟩) := by
        intro stX
        simp [resolverWithInput, dmBind, dmEmit, dmLift, dmPure, hu]
      have hdisp := dispatch_fwd_rwi ⟨fs.map MWProg.fwd, some S, some T, some VMode.off⟩
        userRes raw fs ctx (.error e) hw
      have hfull : procCall ⟨fs.map MWProg.fwd, some S, some T, some VMode.off⟩
          userRes ctx raw
          = ((rpcToErr V e).1,
             ⟨(fs.length : Int),
              startsFrom 0 fs ctx ++
                [Ev.resolve (chainFinal fs ctx),
                 Ev.callUser (chainFinal fs ctx) raw]⟩) := by
        simp only [procCall, dmBind, dmLift, dmPure, hdisp]
      constructor
      · rw [hfull]
        simp [specCall, hu]
      · rw [hfull]
        cases hS : S raw <;>
          simp [callUserEvents_append, callUserEvents_cons_resolve,
            callUserEvents_cons_callUser, callUserEvents_startsFrom,
            callUserEvents_finishesFrom, callUserEvents_nil]
    | ok out =>
      have hw : ∀ stX : DispatchSt Ctx V,
          resolverWithInput ⟨fs.map MWProg.fwd, some S, some T, some VMode.off⟩
            userRes raw (chainFinal fs ctx) stX
          = (.ok out, ⟨stX.idx, stX.trace ++ [Ev.callUser (chainFinal fs ctx) raw]⟩) := by
        intro stX
        cases out with
        | ok d code => simp [resolverWithInput, dmBind, dmEmit, dmLift, dmPure, hu]
        | err c p => simp [resolverWithInput, dmBind, dmEmit, dmLift, dmPure, hu]
      have hdisp := dispatch_fwd_rwi ⟨fs.map MWProg.fwd, some S, some T, some VMode.off⟩
        userRes raw fs ctx (.ok out) hw
      have hfull : procCall ⟨fs.map MWProg.fwd, some S, some T, some VMode.off⟩
          userRes ctx raw
          = (out,
             ⟨(fs.length : Int),
              startsFrom 0 fs ctx ++
                Ev.resolve (chainFinal fs ctx) ::
                  Ev.callUser (chainFinal fs ctx) raw :: finishesFrom 0 fs.length⟩) := by
        simp only [procCall, dmBind, dmLift, dmPure, hdisp]
      constructor
      · rw [hfull]
        simp [specCall, hu]
      · rw [hfull]
        cases hS : S raw <;>
          simp [callUserEvents_append, callUserEvents_cons_resolve,
            callUserEvents_cons_callUser, callUserEvents_cons_start,
            callUserEvents_cons_finish, callUserEvents_startsFrom,
            callUserEvents_finishesFrom, callUserEvents_nil]
  | «on» =>
    cases hS : S raw with
    | error issues =>
      have hfull : procCall ⟨fs.map MWProg.fwd, some S, some T, some VMode.on⟩
          userRes ctx raw
          = ((rpcToErr V (createRPCError "RPC_BAD_REQUEST" "Validation failed" none
              (some issues))).1, ⟨-1, []⟩) := by
        simp [procCall, dmBind, dmLift, dmPure, parseInput, hS]
      constructor
      · rw [hfull]
        simp [specCall, parseInput, hS]
      · rw [hfull]
        simp [callUserEvents, hS]
    | ok v =>
      cases hu : userRes (chainFinal fs ctx) v with
      | error e =>
        have hw : ∀ stX : DispatchSt Ctx V,
            resolverWithInput ⟨fs.map MWProg.fwd, some S, some T, some VMode.on⟩
              userRes v (chainFinal fs ctx) stX
            = (.error e, ⟨stX.idx, stX.trace ++ [Ev.callUser (chainFinal fs ctx) v]⟩) := by
          intro stX
          simp [resolverWithInput, dmBind, dmEmit, dmLift, dmPure, hu]
        have hdisp := dispatch_fwd_rwi ⟨fs.map MWProg.fwd, some S, some T, some VMode.on⟩
          userRes v fs ctx (.error e) hw
        have hfull : procCall ⟨fs.map MWProg.fwd, some S, some T, some VMode.on⟩
            userRes ctx raw
            = ((rpcToErr V e).1,
               ⟨(fs.length : Int),
                startsFrom 0 fs ctx ++
                  [Ev.resolve (chainFinal fs ctx),
                   Ev.callUser (chainFinal fs ctx) v]⟩) := by
          simp only [procCall, dmBind, dmLift, dmPure, parseInput, hS, hdisp]
        constructor
        · rw [hfull]
          simp [specCall, parseInput, hS, hu]
        · rw [hfull]
          simp [hS, callUserEvents_append, callUserEvents_cons_resolve,
            callUserEvents_cons_callUser, callUserEvents_startsFrom,
            callUserEvents_finishesFrom, callUserEvents_nil]
      | ok out =>
        cases out with
        | err c p =>
          have hw : ∀ stX : DispatchSt Ctx V,
              resolverWithInput ⟨fs.map MWProg.fwd, some S, some T, some VMode.on⟩
                userRes v (chainFinal fs ctx) stX
              = (.ok (.err c p),
                 ⟨stX.idx, stX.trace ++ [Ev.callUser (chainFinal fs ctx) v]⟩) := by
            intro stX
            simp [resolverWithInput, dmBind, dmEmit, dmLift, dmPure, hu]
          have hdisp := dispatch_fwd_rwi
            ⟨fs.map MWProg.fwd, some S, some T, some VMode.on⟩
            userRes v fs ctx (.ok (.err c p)) hw
          have hfull : procCall ⟨fs.map MWProg.fwd, some S, some T, some VMode.on⟩
              userRes ctx raw
              = (.err c p,
                 ⟨(fs.length : Int),
                  startsFrom 0 fs ctx ++
                    Ev.resolve (chainFinal fs ctx) ::
                      Ev.callUser (chainFinal fs ctx) v ::
                        finishesFrom 0 fs.length⟩) := by
            simp only [procCall, dmBind, dmLift, dmPure, parseInput, hS, hdisp]
          constructor
          · rw [hfull]
            simp [specCall, parseInput, hS, hu]
          · rw [hfull]
            simp [hS, callUserEvents_append, callUserEvents_cons_resolve,
              callUserEvents_cons_callUser, callUserEvents_cons_start,
              callUserEvents_cons_finish, callUserEvents_startsFrom,
              callUserEvents_finishesFrom, callUserEvents_nil]
        | ok d code =>
          cases hT : T d with
          | ok d1 =>
            have hw : ∀ stX : DispatchSt Ctx V,
                resolverWithInput ⟨fs.map MWProg.fwd, some S, some T, some VMode.on⟩
                  userRes v (chainFinal fs ctx) stX
                = (.ok (.ok d1 code),
                   ⟨stX.idx, stX.trace ++ [Ev.callUser (chainFinal fs ctx) v]⟩) := by
              intro stX
              simp [resolverWithInput, dmBind, dmEmit, dmLift, dmPure, hu,
                parseOutput, hT]
            have hdisp := dispatch_fwd_rwi
              ⟨fs.map MWProg.fwd, some S, some T, some VMode.on⟩
              userRes v fs ctx (.ok (.ok d1 code)) hw
            have hfull : procCall ⟨fs.map MWProg.fwd, some S, some T, some VMode.on⟩
                userRes ctx raw
                = (.ok d1 code,
                   ⟨(fs.length : Int),
                    startsFrom 0 fs ctx ++
                      Ev.resolve (chainFinal fs ctx) ::
                        Ev.callUser (chainFinal fs ctx) v ::
                          finishesFrom 0 fs.length⟩) := by
              simp only [procCall, dmBind, dmLift, dmPure, parseInput, hS, hdisp]
            constructor
            · rw [hfull]
              simp [specCall, parseInput, parseOutput, hS, hu, hT]
            · rw [hfull]
              simp [hS, callUserEvents_append, callUserEvents_cons_resolve,
                callUserEvents_cons_callUser, callUserEvents_cons_start,
                callUserEvents_cons_finish, callUserEvents_startsFrom,
                callUserEvents_finishesFrom, callUserEvents_nil]
          | error iss2 =>
            have hw : ∀ stX : DispatchSt Ctx V,
                resolverWithInput ⟨fs.map MWProg.fwd, some S, some T, some VMode.on⟩
                  userRes v (chainFinal fs ctx) stX
                = (.error (createRPCError "RPC_INTERNAL_SERVER_ERROR" "Validation failed"
                     none (some iss2)),
                   ⟨stX.idx, stX.trace ++ [Ev.callUser (chainFinal fs ctx) v]⟩) := by
              intro stX
              simp [resolverWithInput, dmBind, dmEmit, dmLift, dmPure, hu,
                parseOutput, hT]
            have hdisp := dispatch_fwd_rwi
              ⟨fs.map MWProg.fwd, some S, some T, some VMode.on⟩
              userRes v fs ctx
              (.error (createRPCError "RPC_INTERNAL_SERVER_ERROR" "Validation failed"
                none (some iss2))) hw
            have hfull : procCall ⟨fs.map MWProg.fwd, some S, some T, some VMode.on⟩
                userRes ctx raw
                = ((rpcToErr V (createRPCError "RPC_INTERNAL_SERVER_ERROR"
                     "Validation failed" none (some iss2))).1,
                   ⟨(fs.length : Int),
                    startsFrom 0 fs ctx ++
                      [Ev.resolve (chainFinal fs ctx),
                       Ev.callUser (chainFinal fs ctx) v]⟩) := by
              simp only [procCall, dmBind, dmLift, dmPure, parseInput, hS, hdisp]
            constructor
            · rw [hfull]
              simp [specCall, parseInput, parseOutput, hS, hu, hT]
            · rw [hfull]
              simp [hS, callUserEvents_append, callUserEvents_cons_resolve,
                callUserEvents_cons_callUser, callUserEvents_startsFrom,
                callUserEvents_finishesFrom, callUserEvents_nil]

/-- Splitting a character list at the first separator: dot-free prefixes and a
literal dot determine the split uniquely. -/
theorem chars_split_at_dot :
    ∀ (a b u v : List Char), '.' ∉ a → '.' ∉ b →
      a ++ '.' :: u = b ++ '.' :: v → a = b ∧ u = v := by
  intro a
  induction a with
  | nil =>
    intro b u v _ hb h
    cases b with
    | nil => simpa using h
    | cons c b1 =>
      simp only [List.nil_append, List.cons_append, List.cons.injEq] at h
      refine absurd ?_ hb
      rw [h.1]
      exact List.mem_cons_self _ _
  | cons c a1 ih =>
    intro b u v ha hb h
    cases b with
    | nil =>
      simp only [List.cons_append, List.nil_append, List.cons.injEq] at h
      refine absurd ?_ ha
      rw [h.1]
      exact List.mem_cons_self _ _
    | cons c2 b1 =>
      simp only [List.cons_append, List.cons.injEq] at h
      obtain ⟨rfl, h2⟩ := h
      have ha1 : '.' ∉ a1 := fun hx => ha (List.mem_cons_of_mem _ hx)
      have hb1 : '.' ∉ b1 := fun hx => hb (List.mem_cons_of_mem _ hx)
      obtain ⟨rfl, rfl⟩ := ih b1 u v ha1 hb1 h2
      exact ⟨rfl, rfl⟩

/-- Character content of a dotted join of two or more segments. -/
theorem joinPath_data_cons (x : String) (y : String) (ys : List String) :
    (joinPath (x :: y :: ys)).data = x.data ++ '.' :: (joinPath (y :: ys)).data := by
  show (x ++ "." ++ joinPath (y :: ys)).data = _
  simp [String.data_append]

/-- The dotted join is injective on non-empty lists of valid names (non-empty,
dot-free): exact string equality of joined keys coincides with equality of the
segment lists. -/
theorem joinPath_inj :
    ∀ (xs ys : List String), (∀ x ∈ xs, validKey x) → (∀ y ∈ ys, validKey y) →
      xs ≠ [] → ys ≠ [] → joinPath xs = joinPath ys → xs = ys := by
  intro xs
  induction xs with
  | nil => intro ys _ _ hne; exact absurd rfl hne
  | cons x xs1 ih =>
    intro ys hxv hyv _ hyne h
    cases ys with
    | nil => exact absurd rfl hyne
    | cons y ys1 =>
      cases xs1 with
      | nil =>
        cases ys1 with
        | nil =>
          simp only [joinPath] at h
          rw [h]
        | cons y2 ys2 =>
          exfalso
          have hx : joinPath [x] = x := rfl
          rw [hx] at h
          have hd : x.data = y.data ++ '.' :: (joinPath (y2 :: ys2)).data := by
            rw [← joinPath_data_cons]
            exact congrArg String.data h
          have : '.' ∈ x.data := by
            rw [hd]
            exact List.mem_append_right _ (List.mem_cons_self _ _)
          exact (hxv x (List.mem_cons_self _ _)).2 this
      | cons x2 xs2 =>
        cases ys1 with
        | nil =>
          exfalso
          have hy : joinPath [y] = y := rfl
          rw [hy] at h
          have hd : y.data = x.data ++ '.' :: (joinPath (x2 :: xs2)).data := by
            rw [← joinPath_data_cons]
            exact congrArg String.data h.symm
          have : '.' ∈ y.data := by
            rw [hd]
            exact List.mem_append_right _ (List.mem_cons_self _ _)
          exact (hyv y (List.mem_cons_self _ _)).2 this
        | cons y2 ys2 =>
          have hd : x.data ++ '.' :: (joinPath (x2 :: xs2)).data
              = y.data ++ '.' :: (joinPath (y2 :: ys2)).data := by
            rw [← joinPath_data_cons, ← joinPath_data_cons]
            exact congrArg String.data h
          have hxd : '.' ∉ x.data := (hxv x (List.mem_cons_self _ _)).2
          have hyd : '.' ∉ y.data := (hyv y (List.mem_cons_self _ _)).2
          obtain ⟨h1, h2⟩ := chars_split_at_dot x.data y.data _ _ hxd hyd hd
          have hxy : x = y := String.ext h1
          have htail : joinPath (x2 :: xs2) = joinPath (y2 :: ys2) := String.ext h2
          have := ih (y2 :: ys2) (fun q hq => hxv q (List.mem_cons_of_mem _ hq))
            (fun q hq => hyv q (List.mem_cons_of_mem _ hq))
            (by simp) (by simp) htail
          rw [hxy, this]

/-- JavaScript `Map` lookup after a `set`. -/
theorem mapGet_mapSet {α : Type} :
    ∀ (m : List (String × α)) (k : String) (v : α) (q : String),
      mapGet (mapSet m k v) q = if k = q then some v else mapGet m q := by
  intro m
  induction m with
  | nil => intro k v q; simp [mapSet, mapGet]
  | cons kv rest ih =>
    intro k v q
    obtain ⟨k1, v1⟩ := kv
    by_cases h1 : k1 = k
    · subst h1
      simp only [mapSet, if_pos rfl, mapGet]
      by_cases h2 : k1 = q <;> simp [h2]
    · simp only [mapSet, if_neg h1, mapGet, ih]
      by_cases h2 : k1 = q
      · subst h2
        have : ¬ (k = k1) := fun hx => h1 hx.symm
        simp [this]
      · simp [h2]

/-- Last-set value over an appended pair list. -/
theorem lastVal_append {α : Type} :
    ∀ (xs ys : List (String × α)) (q : String),
      lastVal (xs ++ ys) q =
        match lastVal ys q with
        | some w => some w
        | none => lastVal xs q := by
  intro xs
  induction xs with
  | nil =>
    intro ys q
    cases h : lastVal ys q <;> simp [lastVal, h]
  | cons kv rest ih =>
    intro ys q
    obtain ⟨k, v⟩ := kv
    simp only [List.cons_append, lastVal, List.append_eq, ih ys q]
    cases lastVal ys q <;> rfl

/-- A key absent from the list has no last-set value. -/
theorem lastVal_of_not_mem {α : Type} :
    ∀ (ps : List (String × α)) (q : String), q ∉ ps.map Prod.fst →
      lastVal ps q = none := by
  intro ps
  induction ps with
  | nil => intro q _; rfl
  | cons kv rest ih =>
    intro q hq
    obtain ⟨k, v⟩ := kv
    simp only [List.map_cons, List.mem_cons] at hq
    push_neg at hq
    have hkq : k ≠ q := fun h => hq.1 h.symm
    simp only [lastVal, ih q hq.2]
    simp [hkq]

/-- With pairwise distinct keys, the last-set value of a present pair is its
value. -/
theorem lastVal_of_mem_nodup {α : Type} :
    ∀ (ps : List (String × α)) (q : String) (p : α),
      (q, p) ∈ ps → (ps.map Prod.fst).Nodup → lastVal ps q = some p := by
  intro ps
  induction ps with
  | nil => intro q p h _; simp at h
  | cons kv rest ih =>
    intro q p hmem hnd
    obtain ⟨k, v⟩ := kv
    simp only [List.map_cons, List.nodup_cons] at hnd
    rcases List.mem_cons.mp hmem with heq | hmem1
    · injection heq with h1 h2
      subst h1
      subst h2
      simp only [lastVal, lastVal_of_not_mem rest q hnd.1]
      simp
    · simp only [lastVal, ih q p hmem1 hnd.2]

/-- A last-set value comes from a pair in the list. -/
theorem lastVal_mem {α : Type} :
    ∀ (ps : List (String × α)) (q : String) (w : α),
      lastVal ps q = some w → (q, w) ∈ ps := by
  intro ps
  induction ps with
  | nil => intro q w h; simp [lastVal] at h
  | cons kv rest ih =>
    intro q w h
    obtain ⟨k, v⟩ := kv
    simp only [lastVal] at h
    cases hrest : lastVal rest q with
    | some w1 =>
      rw [hrest] at h
      cases h
      exact List.mem_cons_of_mem _ (ih q w hrest)
    | none =>
      rw [hrest] at h
      by_cases hk : k = q
      · subst hk
        simp at h
        subst h
        exact List.mem_cons_self _ _
      · simp [hk] at h

/-- Entry names of a well-formed record are pairwise distinct. -/
theorem validE_nodup {P : Type} {es : List (String × RNode P)} (h : ValidE es) :
    (es.map Prod.fst).Nodup := by
  cases h with
  | mk hnd hkeys hsub => exact hnd

/-- Entry names of a well-formed record are valid. -/
theorem validE_keys {P : Type} {es : List (String × RNode P)} (h : ValidE es) :
    ∀ q ∈ es, validKey q.1 := by
  cases h with
  | mk hnd hkeys hsub => exact hkeys

/-- Nested records of a well-formed record are well-formed. -/
theorem validE_sub {P : Type} {es : List (String × RNode P)} (h : ValidE es) :
    ∀ (k : String) (es1 : List (String × RNode P)),
      (k, RNode.sub es1) ∈ es → ValidE es1 := by
  cases h with
  | mk hnd hkeys hsub => exact hsub

/-- Dropping the first entry keeps a record well-formed. -/
theorem validE_tail {P : Type} {e : String × RNode P} {es : List (String × RNode P)}
    (h : ValidE (e :: es)) : ValidE es := by
  cases h with
  | mk hnd hkeys hsub =>
    refine ValidE.mk ?_ ?_ ?_
    · simp only [List.map_cons, List.nodup_cons] at hnd
      exact hnd.2
    · exact fun q hq => hkeys q (List.mem_cons_of_mem _ hq)
    · exact fun k es1 hm => hsub k es1 (List.mem_cons_of_mem _ hm)

/-- A reachability chain is never empty. -/
theorem reaches_ne_nil {P : Type} {es : List (String × RNode P)} {path : List String}
    {p : P} (h : Reaches es path p) : path ≠ [] := by
  cases h <;> simp

/-- A router-reachability chain is never empty. -/
theorem rreaches_ne_nil {P : Type} {es es1 : List (String × RNode P)}
    {path : List String} (h : RReaches es path es1) : path ≠ [] := by
  cases h <;> simp

/-- The first name of a reachability chain is an entry name of the record. -/
theorem reaches_head_mem {P : Type} {es : List (String × RNode P)} {path : List String}
    {p : P} (h : Reaches es path p) :
    ∃ k path1, path = k :: path1 ∧ k ∈ es.map Prod.fst := by
  cases h with
  | head hm => exact ⟨_, [], rfl, List.mem_map.mpr ⟨_, hm, rfl⟩⟩
  | step hm hr => exact ⟨_, _, rfl, List.mem_map.mpr ⟨_, hm, rfl⟩⟩

/-- Names along a reachability chain in a well-formed record are valid. -/
theorem reaches_valid_keys {P : Type} {es : List (String × RNode P)} {path : List String}
    {p : P} (h : Reaches es path p) : ValidE es → ∀ s ∈ path, validKey s := by
  induction h with
  | head hm =>
    intro hv s hs
    rw [List.mem_singleton] at hs
    subst hs
    exact validE_keys hv _ hm
  | step hm hr ih =>
    intro hv s hs
    rcases List.mem_cons.mp hs with rfl | hs1
    · exact validE_keys hv _ hm
    · exact ih (validE_sub hv _ _ hm) s hs1

/-- Names along a router-reachability chain in a well-formed record are valid. -/
theorem rreaches_valid_keys {P : Type} {es es1 : List (String × RNode P)}
    {path : List String} (h : RReaches es path es1) :
    ValidE es → ∀ s ∈ path, validKey s := by
  induction h with
  | head hm =>
    intro hv s hs
    rw [List.mem_singleton] at hs
    subst hs
    exact validE_keys hv _ hm
  | step hm hr ih =>
    intro hv s hs
    rcases List.mem_cons.mp hs with rfl | hs1
    · exact validE_keys hv _ hm
    · exact ih (validE_sub hv _ _ hm) s hs1

/-- Reachability is monotone in the entry list. -/
theorem reaches_mono {P : Type} {es es2 : List (String × RNode P)} {path : List String}
    {p : P} (h : Reaches es path p) (hs : ∀ x ∈ es, x ∈ es2) : Reaches es2 path p := by
  cases h with
  | head hm => exact .head (hs _ hm)
  | step hm hr => exact .step (hs _ hm) hr

/-- With pairwise distinct entry names, an entry name determines its node. -/
theorem unique_entry {P : Type} :
    ∀ (es : List (String × RNode P)) (k : String) (a b : RNode P),
      (es.map Prod.fst).Nodup → (k, a) ∈ es → (k, b) ∈ es → a = b := by
  intro es
  induction es with
  | nil => intro k a b _ h; simp at h
  | cons e rest ih =>
    intro k a b hnd ha hb
    obtain ⟨k1, n1⟩ := e
    simp only [List.map_cons, List.nodup_cons] at hnd
    rcases List.mem_cons.mp ha with h1 | h1 <;> rcases List.mem_cons.mp hb with h2 | h2
    · injection h1 with ha1 ha2
      injection h2 with hb1 hb2
      exact ha2.trans hb2.symm
    · injection h1 with ha1 ha2
      exfalso
      apply hnd.1
      rw [← ha1]
      exact List.mem_map.mpr ⟨(k, b), h2, rfl⟩
    · injection h2 with hb1 hb2
      exfalso
      apply hnd.1
      rw [← hb1]
      exact List.mem_map.mpr ⟨(k, a), h1, rfl⟩
    · exact ih k a b hnd.2 h1 h2

/-- Pairs contributed by later entries remain in the index pair list. -/
theorem procPairs_mem_tail {P : Type} (k : String) (n : RNode P)
    (rest : List (String × RNode P)) (pre : List String) (y : String × P)
    (h : y ∈ procPairs rest pre) : y ∈ procPairs ((k, n) :: rest) pre := by
  cases n with
  | proc p =>
    simp only [procPairs]
    exact List.mem_cons_of_mem _ h
  | sub es1 =>
    simp only [procPairs]
    exact List.mem_append_right _ h
  | other =>
    simp only [procPairs]
    exact h

/-- A procedure entry contributes its dotted key. -/
theorem procPairs_mem_head_proc {P : Type} :
    ∀ (es : List (String × RNode P)) (k : String) (p : P) (pre : List String),
      (k, RNode.proc p) ∈ es → (joinPath (pre ++ [k]), p) ∈ procPairs es pre := by
  intro es
  induction es with
  | nil => intro k p pre h; simp at h
  | cons e rest ih =>
    intro k p pre h
    obtain ⟨k1, n1⟩ := e
    rcases List.mem_cons.mp h with h1 | h1
    · injection h1 with ha hb
      subst ha
      subst hb
      simp only [procPairs]
      exact List.mem_cons_self _ _
    · exact procPairs_mem_tail k1 n1 rest pre _ (ih k p pre h1)

/-- Pairs of a nested record are pairs of the outer record under the extended
prefix. -/
theorem procPairs_mem_sub {P : Type} :
    ∀ (es : List (String × RNode P)) (k : String) (es1 : List (String × RNode P))
      (pre : List String) (y : String × P),
      (k, RNode.sub es1) ∈ es → y ∈ procPairs es1 (pre ++ [k]) →
      y ∈ procPairs es pre := by
  intro es
  induction es with
  | nil => intro k es1 pre y h; simp at h
  | cons e rest ih =>
    intro k es1 pre y h hy
    obtain ⟨k1, n1⟩ := e
    rcases List.mem_cons.mp h with h1 | h1
    · injection h1 with ha hb
      subst ha
      subst hb
      simp only [procPairs]
      exact List.mem_append_left _ hy
    · exact procPairs_mem_tail k1 n1 rest pre y (ih k es1 pre y h1 hy)

/-- Every reachable procedure appears in the index pair list under its joined
dotted key. -/
theorem reaches_mem_procPairs {P : Type} {es : List (String × RNode P)}
    {path : List String} {p : P} (h : Reaches es path p) :
    ∀ pre, (joinPath (pre ++ path), p) ∈ procPairs es pre := by
  induction h with
  | head hm => intro pre; exact procPairs_mem_head_proc _ _ _ pre hm
  | @step es es1 k path p hm hr ih =>
    intro pre
    have h2 := ih (pre ++ [k])
    rw [List.append_assoc, List.singleton_append] at h2
    exact procPairs_mem_sub _ _ _ _ _ hm h2
/-- Every key of the index pair list is the joined dotted key of a reachable
procedure. -/
theorem procPairs_key_reaches {P : Type} :
    ∀ (es : List (String × RNode P)) (pre : List String) (q : String),
      q ∈ (procPairs es pre).map Prod.fst →
      ∃ segs p, Reaches es segs p ∧ q = joinPath (pre ++ segs)
  | [], pre, q => by
    intro hq
    simp [procPairs] at hq
  | (k, RNode.proc p) :: rest, pre, q => by
    intro hq
    simp only [procPairs, List.map_cons, List.mem_cons] at hq
    rcases hq with rfl | hq
    · exact ⟨[k], p, .head (List.mem_cons_self _ _), rfl⟩
    · obtain ⟨segs, p1, hr, rfl⟩ := procPairs_key_reaches rest pre q hq
      exact ⟨segs, p1, reaches_mono hr (fun x hx => List.mem_cons_of_mem _ hx), rfl⟩
  | (k, RNode.sub es1) :: rest, pre, q => by
    intro hq
    simp only [procPairs, List.map_append, List.mem_append] at hq
    rcases hq with hq | hq
    · obtain ⟨segs, p1, hr, rfl⟩ := procPairs_key_reaches es1 (pre ++ [k]) q hq
      refine ⟨k :: segs, p1, .step (List.mem_cons_self _ _) hr, ?_⟩
      rw [List.append_assoc, List.singleton_append]
    · obtain ⟨segs, p1, hr, rfl⟩ := procPairs_key_reaches rest pre q hq
      exact ⟨segs, p1, reaches_mono hr (fun x hx => List.mem_cons_of_mem _ hx), rfl⟩
  | (k, RNode.other) :: rest, pre, q => by
    intro hq
    simp only [procPairs] at hq
    obtain ⟨segs, p1, hr, rfl⟩ := procPairs_key_reaches rest pre q hq
    exact ⟨segs, p1, reaches_mono hr (fun x hx => List.mem_cons_of_mem _ hx), rfl⟩
termination_by es _ _ => sizeOf es
decreasing_by all_goals (simp_wf; try omega)

/-- In a well-formed record, the dotted keys of the index pair list are
pairwise distinct: distinct sibling names joined under a common prefix with
dot-free segments cannot collide. -/
theorem procPairs_keys_nodup {P : Type} :
    ∀ (es : List (String × RNode P)) (pre : List String),
      ValidE es → (∀ s ∈ pre, validKey s) →
      ((procPairs es pre).map Prod.fst).Nodup
  | [], _, _, _ => by simp [procPairs]
  | (k, RNode.proc p) :: rest, pre, hv, hpre => by
    simp only [procPairs, List.map_cons, List.nodup_cons]
    constructor
    · intro hmem
      obtain ⟨segs, p1, hr, heq⟩ := procPairs_key_reaches rest pre _ hmem
      have hvk : validKey k := validE_keys hv (k, RNode.proc p) (List.mem_cons_self _ _)
      have hvrest : ValidE rest := validE_tail hv
      have hsegs := reaches_valid_keys hr hvrest
      have h1 : ∀ x ∈ pre ++ [k], validKey x := by
        intro x hx
        rcases List.mem_append.mp hx with hx | hx
        · exact hpre x hx
        · rw [List.mem_singleton] at hx
          subst hx
          exact hvk
      have h2 : ∀ x ∈ pre ++ segs, validKey x := by
        intro x hx
        rcases List.mem_append.mp hx with hx | hx
        · exact hpre x hx
        · exact hsegs x hx
      have hne2 : pre ++ segs ≠ [] := by
        intro hc
        exact reaches_ne_nil hr (List.append_eq_nil.mp hc).2
      have hlists := joinPath_inj (pre ++ [k]) (pre ++ segs) h1 h2 (by simp) hne2 heq
      have hks : [k] = segs := List.append_cancel_left hlists
      rw [← hks] at hr
      cases hr with
      | head hm1 =>
        have : k ∈ rest.map Prod.fst := List.mem_map.mpr ⟨_, hm1, rfl⟩
        have hnd := validE_nodup hv
        simp only [List.map_cons, List.nodup_cons] at hnd
        exact hnd.1 this
      | step hm1 hr1 => exact reaches_ne_nil hr1 rfl
    · exact procPairs_keys_nodup rest pre (validE_tail hv) hpre
  | (k, RNode.sub es1) :: rest, pre, hv, hpre => by
    simp only [procPairs, List.map_append]
    have hvk : validKey k := validE_keys hv (k, RNode.sub es1) (List.mem_cons_self _ _)
    have hpre1 : ∀ s ∈ pre ++ [k], validKey s := by
      intro x hx
      rcases List.mem_append.mp hx with hx | hx
      · exact hpre x hx
      · rw [List.mem_singleton] at hx
        subst hx
        exact hvk
    refine List.Nodup.append
      (procPairs_keys_nodup es1 (pre ++ [k])
        (validE_sub hv k es1 (List.mem_cons_self _ _)) hpre1)
      (procPairs_keys_nodup rest pre (validE_tail hv) hpre) ?_
    intro q hq1 hq2
    obtain ⟨s1, p1, hr1, he1⟩ := procPairs_key_reaches es1 (pre ++ [k]) q hq1
    obtain ⟨s2, p2, hr2, he2⟩ := procPairs_key_reaches rest pre q hq2
    rw [List.append_assoc, List.singleton_append] at he1
    have hv1 : ValidE es1 := validE_sub hv k es1 (List.mem_cons_self _ _)
    have hvrest : ValidE rest := validE_tail hv
    have hs1 := reaches_valid_keys hr1 hv1
    have hs2 := reaches_valid_keys hr2 hvrest
    have h1 : ∀ x ∈ pre ++ k :: s1, validKey x := by
      intro x hx
      rcases List.mem_append.mp hx with hx | hx
      · exact hpre x hx
      · rcases List.mem_cons.mp hx with rfl | hx
        · exact hvk
        · exact hs1 x hx
    have h2 : ∀ x ∈ pre ++ s2, validKey x := by
      intro x hx
      rcases List.mem_append.mp hx with hx | hx
      · exact hpre x hx
      · exact hs2 x hx
    have hne2 : pre ++ s2 ≠ [] := by
      intro hc
      exact reaches_ne_nil hr2 (List.append_eq_nil.mp hc).2
    have hlists := joinPath_inj (pre ++ k :: s1) (pre ++ s2) h1 h2 (by simp) hne2
      (he1.symm.trans he2)
    have hks : k :: s1 = s2 := List.append_cancel_left hlists
    rw [← hks] at hr2
    obtain ⟨k2, path2, hpe, hm2⟩ := reaches_head_mem hr2
    injection hpe with hk2 hpath2
    subst hk2
    have hnd := validE_nodup hv
    simp only [List.map_cons, List.nodup_cons] at hnd
    exact hnd.1 hm2
  | (k, RNode.other) :: rest, pre, hv, hpre => by
    simp only [procPairs]
    exact procPairs_keys_nodup rest pre (validE_tail hv) hpre
termination_by es _ _ _ => sizeOf es
decreasing_by all_goals (simp_wf; try omega)
/-- Index lookup after the depth-first visit: a key set during the visit wins
with its most recent value; otherwise the accumulator answers. -/
theorem mapGet_visitIdx {P : Type} :
    ∀ (es : List (String × RNode P)) (pre : List String) (acc : RouterIndex P)
      (q : String),
      mapGet (visitIdx es pre acc).procs q =
        match lastVal (procPairs es pre) q with
        | some w => some w
        | none => mapGet acc.procs q
  | [], pre, acc, q => by simp [visitIdx, procPairs, lastVal]
  | (k, RNode.proc p) :: rest, pre, acc, q => by
    simp only [visitIdx, procPairs]
    rw [mapGet_visitIdx rest pre ⟨mapSet acc.procs (joinPath (pre ++ [k])) p,
      acc.routers⟩ q]
    simp only [lastVal]
    cases lastVal (procPairs rest pre) q with
    | some w => rfl
    | none =>
      simp only [mapGet_mapSet]
      by_cases h : joinPath (pre ++ [k]) = q <;> simp [h]
  | (k, RNode.sub es1) :: rest, pre, acc, q => by
    simp only [visitIdx, procPairs]
    rw [mapGet_visitIdx rest pre
      (visitIdx es1 (pre ++ [k])
        ⟨acc.procs, mapSet acc.routers (joinPath (pre ++ [k])) es1⟩) q,
      mapGet_visitIdx es1 (pre ++ [k])
        ⟨acc.procs, mapSet acc.routers (joinPath (pre ++ [k])) es1⟩ q,
      lastVal_append]
    cases lastVal (procPairs rest pre) q <;>
      cases lastVal (procPairs es1 (pre ++ [k])) q <;> rfl
  | (k, RNode.other) :: rest, pre, acc, q => by
    simp only [visitIdx, procPairs]
    exact mapGet_visitIdx rest pre acc q
termination_by es _ _ _ => sizeOf es
decreasing_by all_goals (simp_wf; try omega)

/-- In a well-formed record, no name chain reaches both a procedure and a
nested router. -/
theorem reaches_not_rreaches {P : Type} {es : List (String × RNode P)}
    {path : List String} {p : P} (h : Reaches es path p) :
    ∀ es2, ValidE es → RReaches es path es2 → False := by
  induction h with
  | @head es k p hm =>
    intro es2 hv hr
    cases hr with
    | head hm2 =>
      have := unique_entry es k _ _ (validE_nodup hv) hm hm2
      simp at this
    | step hm2 hr2 => exact rreaches_ne_nil hr2 rfl
  | @step es es1 k path p hm hr ih =>
    intro es2 hv hrr
    cases hrr with
    | head hm2 => exact reaches_ne_nil hr rfl
    | step hm2 hrr2 =>
      have := unique_entry es k _ _ (validE_nodup hv) hm hm2
      injection this with he
      subst he
      exact ih es2 (validE_sub hv _ _ hm) hrr2

/-- C8: in a router tree whose entry names are non-empty, dot-free, and
pairwise distinct, every procedure reachable by following a name chain is
returned by `getProcedureAtPath` at that chain; a path whose joined dotted
key is not an exact key of the built index yields null; and a path reaching a
nested router (rather than a procedure) yields null — lookup is by exact
string equality of the joined key, not tree re-walking. -/
theorem c8_router_index_lookup {P : Type} (es : List (String × RNode P))
    (hv : ValidE es) :
    (∀ (path : List String) (p : P), Reaches es path p →
      getProcedureAtPath es path = some p) ∧
    (∀ path : List String,
      mapGet (buildRouterIndex es).procs (joinPath path) = none →
      getProcedureAtPath es path = none) ∧
    (∀ (path : List String) (es1 : List (String × RNode P)),
      RReaches es path es1 → getProcedureAtPath es path = none) := by
  have hget : ∀ q, mapGet (buildRouterIndex es).procs q =
      match lastVal (procPairs es []) q with
      | some w => some w
      | none => none := by
    intro q
    have h := mapGet_visitIdx es [] ⟨[], []⟩ q
    simpa [buildRouterIndex, mapGet] using h
  refine ⟨?_, ?_, ?_⟩
  · intro path p hr
    have hmem := reaches_mem_procPairs hr []
    rw [List.nil_append] at hmem
    have hnd := procPairs_keys_nodup es [] hv (by simp)
    have hlv := lastVal_of_mem_nodup _ _ _ hmem hnd
    show mapGet (buildRouterIndex es).procs (joinPath path) = some p
    rw [hget, hlv]
  · intro path h
    exact h
  · intro path es1 hrr
    show mapGet (buildRouterIndex es).procs (joinPath path) = none
    rw [hget]
    cases hlv : lastVal (procPairs es []) (joinPath path) with
    | none => rfl
    | some w =>
      exfalso
      have hmem := lastVal_mem _ _ _ hlv
      have hkey : joinPath path ∈ (procPairs es []).map Prod.fst :=
        List.mem_map.mpr ⟨_, hmem, rfl⟩
      obtain ⟨segs, p1, hr1, heq⟩ := procPairs_key_reaches es [] _ hkey
      rw [List.nil_append] at heq
      have hpathv := rreaches_valid_keys hrr hv
      have hsegsv := reaches_valid_keys hr1 hv
      have heq2 := joinPath_inj path segs hpathv hsegsv (rreaches_ne_nil hrr)
        (reaches_ne_nil hr1) heq
      rw [← heq2] at hr1
      exact reaches_not_rreaches hr1 es1 hv hrr
/-- Witness for C8 on the router `{ user: { profile }, ping }`: the nested
lookup finds the procedure, the path naming the nested router yields null,
and an unknown key yields null. -/
theorem c8_router_index_lookup_witness :
    getProcedureAtPath
        [("user", RNode.sub [("profile", RNode.proc (7 : Nat))]),
         ("ping", RNode.proc 3)] ["user", "profile"] = some 7 ∧
    getProcedureAtPath
        [("user", RNode.sub [("profile", RNode.proc (7 : Nat))]),
         ("ping", RNode.proc 3)] ["user"] = none ∧
    getProcedureAtPath
        [("user", RNode.sub [("profile", RNode.proc (7 : Nat))]),
         ("ping", RNode.proc 3)] ["nope"] = none := by
  have hvin : ValidE [("profile", RNode.proc (7 : Nat))] := by
    refine ValidE.mk (by decide) ?_ ?_
    · intro q hq
      rw [List.mem_singleton] at hq
      subst hq
      decide
    · intro k es1 hm
      rw [List.mem_singleton] at hm
      injection hm with h1 h2
      simp at h2
  have hv : ValidE [("user", RNode.sub [("profile", RNode.proc (7 : Nat))]),
      ("ping", RNode.proc 3)] := by
    refine ValidE.mk (by decide) ?_ ?_
    · intro q hq
      simp only [List.mem_cons, List.mem_singleton, List.not_mem_nil, or_false] at hq
      rcases hq with rfl | rfl
      · decide
      · decide
    · intro k es1 hm
      simp only [List.mem_cons, List.mem_singleton, List.not_mem_nil, or_false] at hm
      rcases hm with h | h
      · injection h with h1 h2
        injection h2 with h3
        subst h3
        exact hvin
      · injection h with h1 h2
        simp at h2
  refine ⟨?_, ?_, ?_⟩
  · exact (c8_router_index_lookup _ hv).1 ["user", "profile"] 7
      (Reaches.step (List.mem_cons_self _ _)
        (Reaches.head (List.mem_cons_self _ _)))
  · exact (c8_router_index_lookup _ hv).2.2 ["user"]
      [("profile", RNode.proc (7 : Nat))] (RReaches.head (List.mem_cons_self _ _))
  · exact (c8_router_index_lookup _ hv).2.1 ["nope"]
      (by simp [buildRouterIndex, visitIdx, mapSet, mapGet, joinPath])
/-- Witness for C9 as amended: the root router object of `{ p: procedure }` is
frozen, obtained from the characterization with its side condition discharged
concretely. -/
theorem c9_amended_deep_freeze_witness :
    (([] : List String), FrTag.routerObj) ∈
      frozenPositions [("p", RNode.proc (0 : Nat))] :=
  (c9_amended_deep_freeze [("p", RNode.proc (0 : Nat))]
      (([] : List String), FrTag.routerObj)).mpr
    ⟨by simp [reachablePositions], by decide⟩

end DuckServer
